import Mathlib

/-!
Verification of the KDTree repository: a k-d tree over N-dimensional points
with bounded-priority-queue based k-nearest-neighbor search.

Shallow embedding notes.
The C++ code stores coordinates and priorities as double; we model them as
rationals, so every comparison in the algorithms is exact. All structural
code (tree navigation, insertion, the bounded priority queue built on
std::multimap, the branch-and-bound recursion) is translated function by
function from src/KDTree.h, src/Point.h and src/BoundedPQueue.h. The one
standard-library call whose result the C++ standard leaves underdetermined,
std::nth_element inside buildTree, is modelled relationally: BuildTree
quantifies over every arrangement satisfying the documented postcondition of
nth_element (the partition property, and the pivot slot holding the value it
would hold after a full sort). The multimap in BoundedPQueue keeps its
entries as a list sorted by priority, with an equal-priority insertion going
after the existing entries, exactly as std::multimap inserts at the upper
bound; the iteration order of the std::unordered_map tally in kNNValue is
unspecified in C++, and is modelled as first-occurrence order of the labels.
-/

section

attribute [local semireducible] Rat.add Rat.mul Rat.inv Rat.sub

/-- A point in N-dimensional space, from src/Point.h (class Point, an array
of N doubles indexed from 0). -/
abbrev Point (N : ℕ) := Fin N → ℚ

/-- The coordinate axis used at tree level lvl: lvl mod N, as in the C++
expression currLevel % N. -/
def axisAt (N : ℕ) [NeZero N] (lvl : ℕ) : Fin N :=
  ⟨lvl % N, Nat.mod_lt _ (Nat.pos_of_ne_zero (NeZero.ne N))⟩

/-- Squared Euclidean distance, from Distance in src/Point.h:
result += (one[i] - two[i]) * (one[i] - two[i]) for i in [0, N). -/
def Distance {N : ℕ} (one two : Point N) : ℚ :=
  ((List.finRange N).map (fun i => (one i - two i) * (one i - two i))).sum

/-- The bounded priority queue of src/BoundedPQueue.h. The field elems
models the std::multimap from priorities to values: a list sorted by
priority in which entries with equal priorities appear in insertion order. -/
structure BoundedPQueue (E : Type) where
  elems : List (ℚ × E)
  maximumSize : ℕ

namespace BoundedPQueue

/-- Constructor BoundedPQueue(maxSize): a new empty queue. -/
def create (E : Type) (maxSize : ℕ) : BoundedPQueue E := ⟨[], maxSize⟩

/-- size() calls down to the underlying map. -/
def size {E : Type} (q : BoundedPQueue E) : ℕ := q.elems.length

/-- empty() calls down to the underlying map. -/
def isEmpty {E : Type} (q : BoundedPQueue E) : Bool := q.elems.isEmpty

/-- maxSize() returns the data member. -/
def maxSize {E : Type} (q : BoundedPQueue E) : ℕ := q.maximumSize

/-- Insertion into the sorted entry list at the upper bound of the given
priority: past every entry whose priority is less than or equal to the new
one. This is where std::multimap::insert places an element. -/
def insertUB {E : Type} (p : ℚ) (v : E) : List (ℚ × E) → List (ℚ × E)
  | [] => [(p, v)]
  | x :: xs => if x.1 ≤ p then x :: insertUB p v xs else (p, v) :: x :: xs

/-- enqueue(value, priority): add the element to the map, then delete the
last (highest priority) element of the map if the size exceeds the maximum
size. -/
def enqueue {E : Type} (q : BoundedPQueue E) (v : E) (p : ℚ) : BoundedPQueue E :=
  let l := insertUB p v q.elems
  if q.maximumSize < l.length then ⟨l.dropLast, q.maximumSize⟩ else ⟨l, q.maximumSize⟩

/-- worst() returns the largest stored priority, or infinity if the queue
is empty; the infinite sentinel is the top element of WithTop. -/
def worst {E : Type} (q : BoundedPQueue E) : WithTop ℚ :=
  match q.elems.getLast? with
  | none => ⊤
  | some x => (x.1 : WithTop ℚ)

/-- best() returns the smallest stored priority, or infinity if the queue
is empty. -/
def best {E : Type} (q : BoundedPQueue E) : WithTop ℚ :=
  match q.elems.head? with
  | none => ⊤
  | some x => (x.1 : WithTop ℚ)

end BoundedPQueue

/-- A node of the k-d tree, from struct Node in src/KDTree.h: a point, two
children, the level in the tree (0 for the root) and the associated value. -/
inductive Node (N : ℕ) (E : Type) where
  | nil
  | node (point : Point N) (left : Node N E) (right : Node N E) (level : ℕ) (value : E)

/-- The KDTree object: a root node and the running count size_. -/
structure KDTree (N : ℕ) (E : Type) where
  root : Node N E
  size : ℕ

/-- The default-constructed empty KDTree. -/
def KDTree.empty (N : ℕ) (E : Type) : KDTree N E := ⟨Node.nil, 0⟩

/-- findNode from src/KDTree.h: walks from currNode toward pt, comparing on
axis level % N, and returns the node containing pt if present, else the node
below which pt would be inserted (the last node visited). Returns nil only
when called on an empty subtree. -/
def findNode {N : ℕ} [NeZero N] {E : Type} : Node N E → Point N → Node N E
  | Node.nil, _ => Node.nil
  | Node.node p l r lvl v, pt =>
    if p = pt then Node.node p l r lvl v
    else if pt (axisAt N lvl) < p (axisAt N lvl) then
      match l with
      | Node.nil => Node.node p l r lvl v
      | _ => findNode l pt
    else
      match r with
      | Node.nil => Node.node p l r lvl v
      | _ => findNode r pt

/-- The test contains performs on the findNode result: non-null and
holding a point equal to pt. -/
def containsNode {N : ℕ} [NeZero N] {E : Type} (n : Node N E) (pt : Point N) : Bool :=
  match findNode n pt with
  | Node.nil => false
  | Node.node p _ _ _ _ => decide (p = pt)

/-- The lookup at performs on the findNode result: the stored value when
the point matches, the out_of_range outcome (none) otherwise. -/
def atNode {N : ℕ} [NeZero N] {E : Type} (n : Node N E) (pt : Point N) : Option E :=
  match findNode n pt with
  | Node.nil => none
  | Node.node p _ _ _ v => if p = pt then some v else none

/-- contains from src/KDTree.h: findNode result is non-null and holds a
point equal to pt. -/
def KDTree.contains {N : ℕ} [NeZero N] {E : Type} (T : KDTree N E) (pt : Point N) : Bool :=
  containsNode T.root pt

/-- The read accessor at from src/KDTree.h. Returns none exactly when the
C++ code throws out_of_range (point not found); otherwise the stored value. -/
def KDTree.atP {N : ℕ} [NeZero N] {E : Type} (T : KDTree N E) (pt : Point N) : Option E :=
  atNode T.root pt

/-- The recursive effect of insert on a nonempty subtree. The C++ insert
calls findNode and then either overwrites the value of the node found (when
its point equals pt) or attaches a fresh node, at level parent.level + 1, as
the child on the side selected by comparing coordinates on the parent axis;
this recursion follows exactly the comparisons findNode makes. -/
def insertNode {N : ℕ} [NeZero N] {E : Type} : Node N E → Point N → E → Node N E
  | Node.nil, _, _ => Node.nil
  | Node.node p l r lvl w, pt, v =>
    if p = pt then Node.node p l r lvl v
    else if pt (axisAt N lvl) < p (axisAt N lvl) then
      match l with
      | Node.nil => Node.node p (Node.node pt Node.nil Node.nil (lvl + 1) v) r lvl w
      | _ => Node.node p (insertNode l pt v) r lvl w
    else
      match r with
      | Node.nil => Node.node p l (Node.node pt Node.nil Node.nil (lvl + 1) v) lvl w
      | _ => Node.node p l (insertNode r pt v) lvl w

/-- insert from src/KDTree.h: on an empty tree the point becomes a root at
level 0 and size_ becomes 1; otherwise the tree is updated along the
findNode path and size_ grows by one exactly when no node held a point equal
to pt. -/
def KDTree.insert {N : ℕ} [NeZero N] {E : Type} (T : KDTree N E) (pt : Point N) (v : E) : KDTree N E :=
  match T.root with
  | Node.nil => ⟨Node.node pt Node.nil Node.nil 0 v, 1⟩
  | root => ⟨insertNode root pt v, if T.contains pt then T.size else T.size + 1⟩

/-- The list of points stored in a subtree, root first. -/
def pointsList {N : ℕ} {E : Type} : Node N E → List (Point N)
  | Node.nil => []
  | Node.node p l r _ _ => p :: (pointsList l ++ pointsList r)

/-- The list of stored (point, value) pairs of a subtree, root first. -/
def pairsList {N : ℕ} {E : Type} : Node N E → List (Point N × E)
  | Node.nil => []
  | Node.node p l r _ v => (p, v) :: (pairsList l ++ pairsList r)

/-- nearestNeighborRecurse from src/KDTree.h: enqueue the current point with
priority Distance(point, key), recurse into the half containing key, then
recurse into the other half exactly when the queue is not full or the
absolute axis gap is strictly below the current worst priority. -/
def nearestNeighborRecurse {N : ℕ} [NeZero N] {E : Type} :
    Node N E → Point N → BoundedPQueue E → BoundedPQueue E
  | Node.nil, _, q => q
  | Node.node p l r lvl v, key, q =>
    let q1 := q.enqueue v (Distance p key)
    if key (axisAt N lvl) < p (axisAt N lvl) then
      let q2 := nearestNeighborRecurse l key q1
      if q2.size < q2.maxSize ∨
          ((|key (axisAt N lvl) - p (axisAt N lvl)| : ℚ) : WithTop ℚ) < q2.worst then
        nearestNeighborRecurse r key q2
      else q2
    else
      let q2 := nearestNeighborRecurse r key q1
      if q2.size < q2.maxSize ∨
          ((|key (axisAt N lvl) - p (axisAt N lvl)| : ℚ) : WithTop ℚ) < q2.worst then
        nearestNeighborRecurse l key q2
      else q2

/-- First-occurrence list of the distinct labels, modelling the iteration
order of the std::unordered_map counter in kNNValue (C++ leaves that order
unspecified; any fixed order satisfies the code we verify). -/
def tallyKeys {E : Type} [DecidableEq E] (l : List E) : List E :=
  l.foldl (fun acc x => if x ∈ acc then acc else acc ++ [x]) []

/-- The final scan of kNNValue: result starts at the default value, cnt at
minus one, and each tallied label with a strictly larger count replaces the
current result. -/
def majorityVote {E : Type} [DecidableEq E] [Inhabited E] (l : List E) : E :=
  ((tallyKeys l).foldl
    (fun acc x => if acc.2 < (l.count x : ℤ) then (x, (l.count x : ℤ)) else acc)
    ((default : E), (-1 : ℤ))).1

/-- kNNValue from src/KDTree.h: an empty tree returns the default label;
otherwise run the branch-and-bound recursion with a queue of capacity k and
return the most frequent label among the retained entries, dequeued in
increasing priority order. -/
def KDTree.kNNValue {N : ℕ} [NeZero N] {E : Type} [DecidableEq E] [Inhabited E]
    (T : KDTree N E) (key : Point N) (k : ℕ) : E :=
  if T.size = 0 then default
  else majorityVote ((nearestNeighborRecurse T.root key (BoundedPQueue.create E k)).elems.map Prod.snd)

/-- Modelled from the spec: insertion step of a naive linear-scan sort of
the stored pairs by squared Euclidean distance to the query. -/
def insertByDist {N : ℕ} {E : Type} (key : Point N) (e : Point N × E) :
    List (Point N × E) → List (Point N × E)
  | [] => [e]
  | x :: xs =>
    if Distance e.1 key < Distance x.1 key then e :: x :: xs else x :: insertByDist key e xs

/-- Modelled from the spec: all stored pairs sorted by squared distance to
the query, smallest first. -/
def sortByDist {N : ℕ} {E : Type} (key : Point N) (l : List (Point N × E)) : List (Point N × E) :=
  l.foldr (insertByDist key) []

/-- Modelled from the spec: the naive reference computation for kNN
classification. Scan all stored pairs, keep the k nearest by squared
Euclidean distance, and return the majority label among them. -/
def naiveKNNValue {N : ℕ} {E : Type} [DecidableEq E] [Inhabited E]
    (T : KDTree N E) (key : Point N) (k : ℕ) : E :=
  if T.size = 0 then default
  else majorityVote (((sortByDist key (pairsList T.root)).take k).map Prod.snd)

/-- A sequence of insert calls applied to the default-constructed empty
tree, left to right. -/
def applyOps {N : ℕ} [NeZero N] {E : Type} (ops : List (Point N × E)) : KDTree N E :=
  ops.foldl (fun T e => T.insert e.1 e.2) (KDTree.empty N E)

/-- The strict level invariant claimed by the spec: at a node of level lvl,
every point of the left subtree is strictly below the node on axis
lvl mod N, and every point of the right subtree is greater or equal. -/
def strictInvB {N : ℕ} [NeZero N] {E : Type} : Node N E → Bool
  | Node.nil => true
  | Node.node p l r lvl _ =>
    ((pointsList l).all fun q => decide (q (axisAt N lvl) < p (axisAt N lvl))) &&
    ((pointsList r).all fun q => decide (p (axisAt N lvl) ≤ q (axisAt N lvl))) &&
    strictInvB l && strictInvB r

/-- The weakened level invariant: left subtree points are less or equal on
the split axis, right subtree points greater or equal. -/
def weakInvB {N : ℕ} [NeZero N] {E : Type} : Node N E → Bool
  | Node.nil => true
  | Node.node p l r lvl _ =>
    ((pointsList l).all fun q => decide (q (axisAt N lvl) ≤ p (axisAt N lvl))) &&
    ((pointsList r).all fun q => decide (p (axisAt N lvl) ≤ q (axisAt N lvl))) &&
    weakInvB l && weakInvB r

/-- The walk of the median pointer in buildTree: while mid is above start
and the element before mid has the same axis coordinate, move mid left. -/
def walkLeft {N : ℕ} {E : Type} (a : Fin N) (l : List (Point N × E)) : ℕ → ℕ
  | 0 => 0
  | m + 1 =>
    match l[m]?, l[m + 1]? with
    | some x, some y => if x.1 a = y.1 a then walkLeft a l m else m + 1
    | _, _ => m + 1

/-- The postcondition the C++ standard gives for std::nth_element with the
axis comparator: every element before position k compares less or equal to
every element from position k on, and the element at position k is the one
a full sort would put there, so it compares less or equal to everything
after it. -/
def nthPartitionedB {N : ℕ} {E : Type} (a : Fin N) (l : List (Point N × E)) (k : ℕ) : Bool :=
  ((l.take k).all fun x => (l.drop k).all fun y => decide (x.1 a ≤ y.1 a)) &&
  (match l[k]? with
   | none => true
   | some x => (l.drop k).all fun y => decide (x.1 a ≤ y.1 a))

/-- buildTree from src/KDTree.h as a relation: the recursion splits the
range at the median on axis level mod N using std::nth_element, whose
output arrangement the C++ standard only constrains by nthPartitionedB, so
the relation quantifies over every conforming arrangement arr; the median
pointer then walks left over elements with equal axis coordinate, and the
element at the final position becomes the node, with the two subranges
built at the next level. An empty range yields no node. -/
inductive BuildTree {N : ℕ} [NeZero N] {E : Type} : List (Point N × E) → ℕ → Node N E → Prop where
  | nil : ∀ lvl, BuildTree [] lvl Node.nil
  | node : ∀ pts lvl arr m x L R,
      List.Perm arr pts →
      nthPartitionedB (axisAt N lvl) arr (arr.length / 2) = true →
      m = walkLeft (axisAt N lvl) arr (arr.length / 2) →
      arr[m]? = some x →
      BuildTree (arr.take m) (lvl + 1) L →
      BuildTree (arr.drop (m + 1)) (lvl + 1) R →
      BuildTree pts lvl (Node.node x.1 L R lvl x.2)

/-- Whether a node is the null pointer. -/
def Node.isNil {N : ℕ} {E : Type} : Node N E → Bool
  | Node.nil => true
  | Node.node _ _ _ _ _ => false

/-- The last value bound to point p by a sequence of (point, value) insert
calls, if any. -/
def lastAssigned {N : ℕ} {E : Type} (ops : List (Point N × E)) (p : Point N) : Option E :=
  ((ops.filter fun e => decide (e.1 = p)).getLast?).map Prod.snd

/-- A one-dimensional point. -/
def w1 (x : ℚ) : Point 1 := fun _ => x

/-- A two-dimensional point. -/
def w2 (x y : ℚ) : Point 2 := ![x, y]

/-- Insert sequence for the kNN pruning analysis: four labelled points on
the line, built by four insert calls. -/
def opsC1 : List (Point 1 × ℕ) :=
  [(w1 0, 0), (w1 (-9/8), 1), (w1 (-19/16), 1), (w1 (1/16), 0)]

/-- The tree built from opsC1 by insert calls. -/
def TC1 : KDTree 1 ℕ := applyOps opsC1

/-- The query point for the kNN pruning analysis. -/
def keyC1 : Point 1 := w1 (-1/2)

/-- Input pairs whose bulk construction can violate the strict level
invariant: axis values 1, 0, 1, 2 with distinct labels. -/
def pts3 : List (Point 1 × ℕ) := [(w1 1, 10), (w1 0, 20), (w1 1, 30), (w1 2, 40)]

/-- One buildTree output for pts3 under a conforming nth_element
arrangement that leaves the two equal axis values apart: the root holds
coordinate 1 and its left subtree also holds coordinate 1. -/
def t3 : Node 1 ℕ :=
  Node.node (w1 1)
    (Node.node (w1 1) (Node.node (w1 0) Node.nil Node.nil 2 20) Node.nil 1 10)
    (Node.node (w1 2) Node.nil Node.nil 1 40) 0 30

/-- Input pairs with two equal points and different labels. -/
def pts4 : List (Point 1 × ℕ) := [(w1 0, 1), (w1 0, 2)]

/-- The buildTree output for pts4: the equal point is stored twice. -/
def t4 : Node 1 ℕ :=
  Node.node (w1 0) Node.nil (Node.node (w1 0) Node.nil Node.nil 1 2) 0 1

/-- Input pairs in two dimensions whose bulk construction can place a point
with equal axis-0 coordinate into the left subtree of the root. -/
def pts0 : List (Point 2 × ℕ) := [(w2 1 7, 10), (w2 0 0, 20), (w2 1 5, 30), (w2 2 2, 40)]

/-- One buildTree output for pts0 under a conforming nth_element
arrangement: the stored point (1, 7) sits in the left subtree of the root
(1, 5) although both share axis-0 coordinate 1, so the lookup path for
(1, 7) turns right at the root and misses it. -/
def t0 : Node 2 ℕ :=
  Node.node (w2 1 5)
    (Node.node (w2 1 7) (Node.node (w2 0 0) Node.nil Node.nil 2 20) Node.nil 1 10)
    (Node.node (w2 2 2) Node.nil Node.nil 1 40) 0 30

/-- The KDTree object holding t0, with size_ = 4 as the bulk constructor
sets it. -/
def KDT0 : KDTree 2 ℕ := ⟨t0, 4⟩

/-- A heap cell for the pointer-level model of deep copy: the fields of
struct Node with child pointers as optional heap addresses. -/
structure Cell (N : ℕ) (E : Type) where
  point : Point N
  left : Option ℕ
  right : Option ℕ
  level : ℕ
  value : E

/-- The heap: an allocation arena of cells addressed by position; new is
modelled by appending, and pointer assignment by List.set. -/
abbrev Store (N : ℕ) (E : Type) := List (Cell N E)

/-- The representation relation between a heap rooted at an optional
address and the pure tree it stores, together with the list of addresses of
the nodes of that tree. -/
inductive ReprA {N : ℕ} {E : Type} : Store N E → Option ℕ → Node N E → List ℕ → Prop where
  | nil : ∀ s, ReprA s none Node.nil []
  | node : ∀ s i c L R adl adr,
      s[i]? = some c →
      ReprA s c.left L adl →
      ReprA s c.right R adr →
      ReprA s (some i) (Node.node c.point L R c.level c.value) (i :: (adl ++ adr))

/-- findNode from src/KDTree.h, reading cells from the heap. -/
inductive FindNodeR {N : ℕ} [NeZero N] {E : Type} : Store N E → ℕ → Point N → ℕ → Prop where
  | found : ∀ s i c pt, s[i]? = some c → c.point = pt → FindNodeR s i pt i
  | leftNil : ∀ s i c pt, s[i]? = some c → c.point ≠ pt →
      pt (axisAt N c.level) < c.point (axisAt N c.level) → c.left = none →
      FindNodeR s i pt i
  | leftGo : ∀ s i c pt j m, s[i]? = some c → c.point ≠ pt →
      pt (axisAt N c.level) < c.point (axisAt N c.level) → c.left = some j →
      FindNodeR s j pt m → FindNodeR s i pt m
  | rightNil : ∀ s i c pt, s[i]? = some c → c.point ≠ pt →
      ¬ pt (axisAt N c.level) < c.point (axisAt N c.level) → c.right = none →
      FindNodeR s i pt i
  | rightGo : ∀ s i c pt j m, s[i]? = some c → c.point ≠ pt →
      ¬ pt (axisAt N c.level) < c.point (axisAt N c.level) → c.right = some j →
      FindNodeR s j pt m → FindNodeR s i pt m

/-- insert from src/KDTree.h at the pointer level: an empty tree allocates
a root at level 0; otherwise findNode locates the target cell, whose value
is overwritten when its point equals pt, and otherwise a fresh cell at
level target.level + 1 is allocated and linked as the child on the side
selected by the axis comparison. -/
inductive InsertR {N : ℕ} [NeZero N] {E : Type} : Store N E → Option ℕ → Point N → E → Store N E → Option ℕ → Prop where
  | emptyTree : ∀ s pt v, InsertR s none pt v (s ++ [⟨pt, none, none, 0, v⟩]) (some s.length)
  | overwrite : ∀ s i pt v j c,
      FindNodeR s i pt j → s[j]? = some c → c.point = pt →
      InsertR s (some i) pt v (s.set j { c with value := v }) (some i)
  | attachLeft : ∀ s i pt v j c,
      FindNodeR s i pt j → s[j]? = some c → c.point ≠ pt →
      pt (axisAt N c.level) < c.point (axisAt N c.level) →
      InsertR s (some i) pt v
        ((s ++ [(⟨pt, none, none, c.level + 1, v⟩ : Cell N E)]).set j { c with left := some s.length })
        (some i)
  | attachRight : ∀ s i pt v j c,
      FindNodeR s i pt j → s[j]? = some c → c.point ≠ pt →
      ¬ pt (axisAt N c.level) < c.point (axisAt N c.level) →
      InsertR s (some i) pt v
        ((s ++ [(⟨pt, none, none, c.level + 1, v⟩ : Cell N E)]).set j { c with right := some s.length })
        (some i)

/-- deepcopyTree from src/KDTree.h at the pointer level: copying a null
pointer returns null; otherwise a fresh cell is allocated as a field copy
of the root cell, its left pointer is then assigned the recursive copy of
the left child, and its right pointer the recursive copy of the right
child. -/
inductive DeepCopyR {N : ℕ} {E : Type} : Store N E → Option ℕ → Store N E → Option ℕ → Prop where
  | nil : ∀ s, DeepCopyR s none s none
  | node : ∀ s i c s1 l1 c1 s2 r1 c2,
      s[i]? = some c →
      DeepCopyR (s ++ [c]) c.left s1 l1 →
      s1[s.length]? = some c1 →
      DeepCopyR (s1.set s.length { c1 with left := l1 }) c.right s2 r1 →
      s2[s.length]? = some c2 →
      DeepCopyR s (some i) (s2.set s.length { c2 with right := r1 }) (some s.length)

/-- Inserting does not change whether a subtree is null. -/
theorem isNil_insertNode {N : ℕ} [NeZero N] {E : Type} (n : Node N E) (pt : Point N) (v : E) :
    (insertNode n pt v).isNil = n.isNil := by
  cases n with
  | nil => rfl
  | node p l r lvl w =>
    simp only [insertNode]
    by_cases h1 : p = pt
    · simp [h1, Node.isNil]
    · by_cases h2 : pt (axisAt N lvl) < p (axisAt N lvl)
      · cases l <;> simp [h1, h2, Node.isNil]
      · cases r <;> simp [h1, h2, Node.isNil]

/-- Unfolding of atNode at a non-null node: a hit at the node itself, or a
lookup into the child on the side of the axis comparison, with a null child
meaning not found. -/
theorem atNode_node {N : ℕ} [NeZero N] {E : Type} (p : Point N) (l r : Node N E)
    (lvl : ℕ) (w : E) (q : Point N) :
    atNode (Node.node p l r lvl w) q =
      if p = q then some w
      else if q (axisAt N lvl) < p (axisAt N lvl) then
        (if l.isNil then none else atNode l q)
      else
        (if r.isNil then none else atNode r q) := by
  by_cases h1 : p = q
  · simp [atNode, findNode, h1]
  · by_cases h2 : q (axisAt N lvl) < p (axisAt N lvl)
    · cases l <;> simp [atNode, findNode, h1, h2, Node.isNil]
    · cases r <;> simp [atNode, findNode, h1, h2, Node.isNil]

/-- contains is exactly definedness of atNode. -/
theorem containsNode_eq_isSome {N : ℕ} [NeZero N] {E : Type} (n : Node N E) (q : Point N) :
    containsNode n q = (atNode n q).isSome := by
  unfold containsNode atNode
  cases findNode n q with
  | nil => rfl
  | node p _ _ _ v => by_cases h : p = q <;> simp [h]

/-- Unfolding of insertNode at a non-null node. -/
theorem insertNode_node {N : ℕ} [NeZero N] {E : Type} (p : Point N) (l r : Node N E)
    (lvl : ℕ) (w : E) (pt : Point N) (v : E) :
    insertNode (Node.node p l r lvl w) pt v =
      if p = pt then Node.node p l r lvl v
      else if pt (axisAt N lvl) < p (axisAt N lvl) then
        (if l.isNil then Node.node p (Node.node pt Node.nil Node.nil (lvl + 1) v) r lvl w
         else Node.node p (insertNode l pt v) r lvl w)
      else
        (if r.isNil then Node.node p l (Node.node pt Node.nil Node.nil (lvl + 1) v) lvl w
         else Node.node p l (insertNode r pt v) lvl w) := by
  simp only [insertNode]
  by_cases h1 : p = pt
  · simp [h1]
  · by_cases h2 : pt (axisAt N lvl) < p (axisAt N lvl)
    · cases l <;> simp [h1, h2, Node.isNil]
    · cases r <;> simp [h1, h2, Node.isNil]

/-- isNil of a null node. -/
@[simp] theorem isNil_nil {N : ℕ} {E : Type} : (Node.nil : Node N E).isNil = true := rfl

/-- isNil of a proper node. -/
@[simp] theorem isNil_node {N : ℕ} {E : Type} (p : Point N) (l r : Node N E) (lvl : ℕ) (v : E) :
    (Node.node p l r lvl v).isNil = false := rfl

/-- Effect of insert on the lookup of any point, over an arbitrary nonempty
subtree: the inserted point now maps to the inserted value and every other
lookup is unchanged. -/
theorem atNode_insertNode {N : ℕ} [NeZero N] {E : Type} (pt q : Point N) (v : E) :
    ∀ n : Node N E, n.isNil = false →
      atNode (insertNode n pt v) q = if q = pt then some v else atNode n q := by
  intro n
  induction n with
  | nil => intro h; simp [Node.isNil] at h
  | node p l r lvl w ihl ihr =>
    intro _
    rw [insertNode_node]
    by_cases h1 : p = pt
    · rw [if_pos h1]
      rw [atNode_node, atNode_node]
      by_cases hq : q = pt
      · have hpq : p = q := by rw [h1, hq]
        simp [hpq, hq]
      · have hpq : ¬ p = q := fun hh => hq (h1 ▸ hh).symm
        simp [hpq, hq]
    · rw [if_neg h1]
      by_cases h2 : pt (axisAt N lvl) < p (axisAt N lvl)
      · rw [if_pos h2]
        cases l with
        | nil =>
          simp only [Node.isNil, if_pos]
          rw [atNode_node, atNode_node, atNode_node]
          by_cases hq : q = pt
          · subst hq
            have hpq : ¬ p = q := h1
            simp [hpq, h2, isNil_node, isNil_nil]
          · by_cases hpq : p = q
            · simp [hpq, hq]
            · by_cases h3 : q (axisAt N lvl) < p (axisAt N lvl)
              · have hptq : ¬ pt = q := fun hh => hq hh.symm
                simp [hpq, h3, hptq, isNil_node, isNil_nil, hq]
              · simp [hpq, h3, hq, isNil_node, isNil_nil]
        | node pl ll rl lvll wl =>
          simp only [Node.isNil, if_neg, Bool.false_eq_true, not_false_iff, if_false]
          rw [atNode_node, atNode_node]
          have hins := ihl rfl
          by_cases hq : q = pt
          · subst hq
            have hpq : ¬ p = q := h1
            have hnil : (insertNode (Node.node pl ll rl lvll wl) q v).isNil = false := by
              rw [isNil_insertNode]; rfl
            simp only [hpq, if_neg, not_false_iff, h2, if_pos, hnil, Bool.false_eq_true, if_false]
            rw [hins]
            simp
          · by_cases hpq : p = q
            · simp [hpq, hq]
            · by_cases h3 : q (axisAt N lvl) < p (axisAt N lvl)
              · have hnil : (insertNode (Node.node pl ll rl lvll wl) pt v).isNil = false := by
                  rw [isNil_insertNode]; rfl
                simp only [hpq, if_neg, not_false_iff, h3, if_pos, hnil, Bool.false_eq_true, if_false,
                  isNil_node]
                simp [hins, hq]
              · simp [hpq, h3, hq, isNil_node, isNil_nil]
      · rw [if_neg h2]
        cases r with
        | nil =>
          simp only [Node.isNil, if_pos]
          rw [atNode_node, atNode_node, atNode_node]
          by_cases hq : q = pt
          · subst hq
            have hpq : ¬ p = q := h1
            simp [hpq, h2, isNil_node, isNil_nil]
          · by_cases hpq : p = q
            · simp [hpq, hq]
            · by_cases h3 : q (axisAt N lvl) < p (axisAt N lvl)
              · simp [hpq, h3, hq, isNil_node, isNil_nil]
              · have hptq : ¬ pt = q := fun hh => hq hh.symm
                simp [hpq, h3, hptq, isNil_node, isNil_nil, hq]
        | node pr lr rr lvlr wr =>
          simp only [Node.isNil, if_neg, Bool.false_eq_true, not_false_iff, if_false]
          rw [atNode_node, atNode_node]
          have hins := ihr rfl
          by_cases hq : q = pt
          · subst hq
            have hpq : ¬ p = q := h1
            have hnil : (insertNode (Node.node pr lr rr lvlr wr) q v).isNil = false := by
              rw [isNil_insertNode]; rfl
            simp only [hpq, if_neg, not_false_iff, h2, if_false, hnil, Bool.false_eq_true]
            rw [hins]
            simp
          · by_cases hpq : p = q
            · simp [hpq, hq]
            · by_cases h3 : q (axisAt N lvl) < p (axisAt N lvl)
              · simp [hpq, h3, hq, isNil_node, isNil_nil]
              · have hnil : (insertNode (Node.node pr lr rr lvlr wr) pt v).isNil = false := by
                  rw [isNil_insertNode]; rfl
                simp only [hpq, if_neg, not_false_iff, h3, if_false, hnil, Bool.false_eq_true,
                  isNil_node]
                simp [hins, hq]

/-- The root is never null after an insert. -/
theorem insert_root_ne_nil {N : ℕ} [NeZero N] {E : Type} (T : KDTree N E) (pt : Point N) (v : E) :
    (T.insert pt v).root.isNil = false := by
  cases hr : T.root with
  | nil => simp [KDTree.insert, hr]
  | node p l r lvl w =>
    simp only [KDTree.insert, hr]
    rw [isNil_insertNode]
    rfl

/-- contains is definedness of the read accessor. -/
theorem contains_eq_isSome_atP {N : ℕ} [NeZero N] {E : Type} (T : KDTree N E) (q : Point N) :
    T.contains q = (T.atP q).isSome :=
  containsNode_eq_isSome T.root q

/-- Effect of insert on the read accessor of any tree: the inserted point
maps to the inserted value and every other lookup is unchanged. -/
theorem atP_insert {N : ℕ} [NeZero N] {E : Type} (T : KDTree N E) (pt : Point N) (v : E)
    (q : Point N) :
    (T.insert pt v).atP q = if q = pt then some v else T.atP q := by
  cases hr : T.root with
  | nil =>
    simp only [KDTree.insert, hr, KDTree.atP]
    rw [atNode_node]
    by_cases hq : q = pt
    · simp [hq, atNode, findNode]
    · have hpq : ¬ pt = q := fun hh => hq hh.symm
      simp [hpq, hq, isNil_nil, atNode, findNode]
  | node p l r lvl w =>
    simp only [KDTree.insert, hr, KDTree.atP]
    exact atNode_insertNode pt q v (Node.node p l r lvl w) rfl

/-- Effect of insert on contains. -/
theorem contains_insert {N : ℕ} [NeZero N] {E : Type} (T : KDTree N E) (pt : Point N) (v : E)
    (q : Point N) :
    (T.insert pt v).contains q = (decide (q = pt) || T.contains q) := by
  rw [contains_eq_isSome_atP, contains_eq_isSome_atP, atP_insert]
  by_cases hq : q = pt <;> simp [hq]

/-- Inserting a point the tree already contains does not change size_. -/
theorem insert_size_of_contains {N : ℕ} [NeZero N] {E : Type} (T : KDTree N E) (pt : Point N)
    (v : E) (hroot : T.root.isNil = false) (hc : T.contains pt = true) :
    (T.insert pt v).size = T.size := by
  cases hr : T.root with
  | nil => rw [hr] at hroot; simp [Node.isNil] at hroot
  | node p l r lvl w => simp [KDTree.insert, hr, hc]

/-- C5: for every tree T, point p and labels v1, v2, inserting (p, v1) and
then (p, v2) yields a tree whose size equals the size after the first
insert alone and in which the accessor returns v2 for p. -/
theorem insert_insert_same_point {N : ℕ} [NeZero N] {E : Type} (T : KDTree N E)
    (p : Point N) (v1 v2 : E) :
    ((T.insert p v1).insert p v2).size = (T.insert p v1).size ∧
    ((T.insert p v1).insert p v2).atP p = some v2 := by
  have hroot := insert_root_ne_nil T p v1
  have hc : (T.insert p v1).contains p = true := by
    rw [contains_insert]; simp
  refine ⟨insert_size_of_contains (T.insert p v1) p v2 hroot hc, ?_⟩
  rw [atP_insert]
  simp

/-- A sequence of inserts folds one call at a time. -/
theorem applyOps_append {N : ℕ} [NeZero N] {E : Type} (ops : List (Point N × E))
    (e : Point N × E) :
    applyOps (ops ++ [e]) = (applyOps ops).insert e.1 e.2 := by
  simp [applyOps, List.foldl_append]

/-- The last assignment after one more insert call. -/
theorem lastAssigned_append {N : ℕ} {E : Type} (ops : List (Point N × E)) (e : Point N × E)
    (p : Point N) :
    lastAssigned (ops ++ [e]) p = if p = e.1 then some e.2 else lastAssigned ops p := by
  unfold lastAssigned
  rw [List.filter_append]
  by_cases h : e.1 = p
  · have : [e].filter (fun q => decide (q.1 = p)) = [e] := by simp [h]
    rw [this, List.getLast?_concat]
    simp [h.symm]
  · have hne : ¬ p = e.1 := fun hh => h hh.symm
    have : [e].filter (fun q => decide (q.1 = p)) = [] := by simp [h]
    rw [this, List.append_nil]
    simp [hne]

/-- C6 amended: a tree built by a sequence of insert calls from the empty
tree contains exactly the inserted points, and the read accessor returns
the label of the most recent insert of each point. -/
theorem applyOps_contains_at {N : ℕ} [NeZero N] {E : Type} (ops : List (Point N × E))
    (p : Point N) :
    ((applyOps ops).contains p = true ↔ p ∈ ops.map Prod.fst) ∧
    (applyOps ops).atP p = lastAssigned ops p := by
  induction ops using List.reverseRecOn with
  | nil =>
    constructor
    · simp [applyOps, KDTree.empty, KDTree.contains, containsNode, findNode]
    · simp [applyOps, KDTree.empty, KDTree.atP, atNode, findNode, lastAssigned]
  | append_singleton xs e ih =>
    rw [applyOps_append, lastAssigned_append]
    constructor
    · rw [contains_insert]
      by_cases h : p = e.1 <;> simp [h, ih.1]
    · rw [atP_insert, ih.2]

/-- A buildTree run on pts0 (with conforming nth_element arrangements)
producing t0. -/
theorem buildTree_t0 : BuildTree pts0 0 t0 := by
  refine BuildTree.node pts0 0 pts0 2 (w2 1 5, 30)
      (Node.node (w2 1 7) (Node.node (w2 0 0) Node.nil Node.nil 2 20) Node.nil 1 10)
      (Node.node (w2 2 2) Node.nil Node.nil 1 40)
      (List.Perm.refl _) (by decide) (by decide) (by decide) ?_ ?_
  · refine BuildTree.node _ 1 [(w2 0 0, 20), (w2 1 7, 10)] 1 (w2 1 7, 10)
        (Node.node (w2 0 0) Node.nil Node.nil 2 20) Node.nil
        (List.Perm.swap (w2 1 7, 10) (w2 0 0, 20) []) (by decide) (by decide) (by decide) ?_ ?_
    · refine BuildTree.node _ 2 [(w2 0 0, 20)] 0 (w2 0 0, 20) Node.nil Node.nil
        (List.Perm.refl _) (by decide) (by decide) (by decide) (BuildTree.nil 3) (BuildTree.nil 3)
    · exact BuildTree.nil 2
  · refine BuildTree.node _ 1 [(w2 2 2, 40)] 0 (w2 2 2, 40) Node.nil Node.nil
      (List.Perm.refl _) (by decide) (by decide) (by decide) (BuildTree.nil 2) (BuildTree.nil 2)

/-- A buildTree run on pts3 (with conforming nth_element arrangements)
producing t3. -/
theorem buildTree_t3 : BuildTree pts3 0 t3 := by
  refine BuildTree.node pts3 0 pts3 2 (w1 1, 30)
      (Node.node (w1 1) (Node.node (w1 0) Node.nil Node.nil 2 20) Node.nil 1 10)
      (Node.node (w1 2) Node.nil Node.nil 1 40)
      (List.Perm.refl _) (by decide) (by decide) (by decide) ?_ ?_
  · refine BuildTree.node _ 1 [(w1 0, 20), (w1 1, 10)] 1 (w1 1, 10)
        (Node.node (w1 0) Node.nil Node.nil 2 20) Node.nil
        (List.Perm.swap (w1 1, 10) (w1 0, 20) []) (by decide) (by decide) (by decide) ?_ ?_
    · refine BuildTree.node _ 2 [(w1 0, 20)] 0 (w1 0, 20) Node.nil Node.nil
        (List.Perm.refl _) (by decide) (by decide) (by decide) (BuildTree.nil 3) (BuildTree.nil 3)
    · exact BuildTree.nil 2
  · refine BuildTree.node _ 1 [(w1 2, 40)] 0 (w1 2, 40) Node.nil Node.nil
      (List.Perm.refl _) (by decide) (by decide) (by decide) (BuildTree.nil 2) (BuildTree.nil 2)

/-- The buildTree run on pts4: both input pairs hold the same point, and
the walk of the median pointer makes the first pair the root while the
second lands in the right subtree, independently of the nth_element
arrangement. -/
theorem buildTree_t4 : BuildTree pts4 0 t4 := by
  refine BuildTree.node pts4 0 pts4 0 (w1 0, 1) Node.nil
      (Node.node (w1 0) Node.nil Node.nil 1 2)
      (List.Perm.refl _) (by decide) (by decide) (by decide) (BuildTree.nil 1) ?_
  refine BuildTree.node _ 1 [(w1 0, 2)] 0 (w1 0, 2) Node.nil Node.nil
    (List.Perm.refl _) (by decide) (by decide) (by decide) (BuildTree.nil 2) (BuildTree.nil 2)

/-- A successful lookup only returns stored points. -/
theorem mem_of_atNode_isSome {N : ℕ} [NeZero N] {E : Type} :
    ∀ (n : Node N E) (p : Point N), (atNode n p).isSome → p ∈ pointsList n := by
  intro n
  induction n with
  | nil => intro p h; simp [atNode, findNode] at h
  | node q l r lvl w ihl ihr =>
    intro p h
    rw [atNode_node] at h
    by_cases h1 : q = p
    · simp [pointsList, h1]
    · rw [if_neg h1] at h
      by_cases h2 : p (axisAt N lvl) < q (axisAt N lvl)
      · rw [if_pos h2] at h
        cases l with
        | nil => simp at h
        | node pl ll rl lvll wl =>
          simp only [isNil_node, Bool.false_eq_true, if_false] at h
          have := ihl p h
          simp only [pointsList, List.mem_cons, List.mem_append] at this ⊢
          tauto
      · rw [if_neg h2] at h
        cases r with
        | nil => simp at h
        | node pr lr rr lvlr wr =>
          simp only [isNil_node, Bool.false_eq_true, if_false] at h
          have := ihr p h
          simp only [pointsList, List.mem_cons, List.mem_append] at this ⊢
          tauto

/-- Under the strict level invariant the lookup path reaches every stored
point. -/
theorem atNode_isSome_of_mem_strict {N : ℕ} [NeZero N] {E : Type} :
    ∀ n : Node N E, strictInvB n = true → ∀ p : Point N, p ∈ pointsList n →
      (atNode n p).isSome := by
  intro n
  induction n with
  | nil => intro _ p hp; simp [pointsList] at hp
  | node q l r lvl w ihl ihr =>
    intro hs p hp
    rw [strictInvB] at hs
    simp only [Bool.and_eq_true, List.all_eq_true, decide_eq_true_eq] at hs
    obtain ⟨⟨⟨hleft, hright⟩, sl⟩, sr⟩ := hs
    rw [atNode_node]
    by_cases h1 : q = p
    · simp [h1]
    · rw [if_neg h1]
      rcases List.mem_cons.mp hp with hqp | hlr
      · exact absurd hqp.symm h1
      · rcases List.mem_append.mp hlr with hlm | hrm
        · have hlt : p (axisAt N lvl) < q (axisAt N lvl) := hleft p hlm
          rw [if_pos hlt]
          cases l with
          | nil => simp [pointsList] at hlm
          | node pl ll rl lvll wl =>
            simp only [isNil_node, Bool.false_eq_true, if_false]
            exact ihl sl p hlm
        · have hge : ¬ p (axisAt N lvl) < q (axisAt N lvl) := not_lt.mpr (hright p hrm)
          rw [if_neg hge]
          cases r with
          | nil => simp [pointsList] at hrm
          | node pr lr rr lvlr wr =>
            simp only [isNil_node, Bool.false_eq_true, if_false]
            exact ihr sr p hrm

/-- C6 counterexample: the bulk-built tree t0 stores the point (1, 7), yet
contains returns false for it, because the lookup path turns right at the
root (1, 5) on the shared axis-0 coordinate. -/
theorem contains_misses_stored_point :
    BuildTree pts0 0 t0 ∧ w2 1 7 ∈ pointsList t0 ∧ KDT0.contains (w2 1 7) = false :=
  ⟨buildTree_t0, by decide, by decide⟩

/-- C7 counterexample: on the bulk-built tree t0 the read accessor raises
out_of_range (returns none) for the stored point (1, 7), so raising is not
equivalent to the point being absent. -/
theorem atP_raises_on_stored_point :
    BuildTree pts0 0 t0 ∧ w2 1 7 ∈ pointsList t0 ∧ KDT0.atP (w2 1 7) = none :=
  ⟨buildTree_t0, by decide, by decide⟩

/-- C7 amended: on the empty tree, contains is false for every point,
kNNValue returns the default label, and the accessor raises; in every tree
the accessor raises whenever the point is not stored; and under the strict
level invariant (in particular for insert-built trees) the accessor raises
exactly when the point is not stored. The accessor never mutates the tree,
which the embedding reflects by returning only an optional value. -/
theorem empty_queries_and_at_raises {N : ℕ} [NeZero N] {E : Type} [DecidableEq E] [Inhabited E] :
    (∀ p : Point N, (KDTree.empty N E).contains p = false) ∧
    (∀ (key : Point N) (k : ℕ), (KDTree.empty N E).kNNValue key k = (default : E)) ∧
    (∀ p : Point N, (KDTree.empty N E).atP p = none) ∧
    (∀ (T : KDTree N E) (p : Point N), p ∉ pointsList T.root → T.atP p = none) ∧
    (∀ (T : KDTree N E) (p : Point N), strictInvB T.root = true →
      (T.atP p = none ↔ p ∉ pointsList T.root)) := by
  refine ⟨?_, ?_, ?_, ?_, ?_⟩
  · intro p; rfl
  · intro key k; rfl
  · intro p; rfl
  · intro T p hmem
    cases hat : T.atP p with
    | none => rfl
    | some v =>
      exact absurd (mem_of_atNode_isSome T.root p (by rw [KDTree.atP] at hat; simp [hat])) hmem
  · intro T p hs
    constructor
    · intro hat hmem
      have := atNode_isSome_of_mem_strict T.root hs p hmem
      rw [KDTree.atP] at hat
      simp [hat] at this
    · intro hmem
      cases hat : T.atP p with
      | none => rfl
      | some v =>
        exact absurd (mem_of_atNode_isSome T.root p (by rw [KDTree.atP] at hat; simp [hat])) hmem

/-- C7 witness: the amended statement evaluated on the empty tree and on
the insert-built tree TC1 at concrete points. -/
theorem empty_queries_and_at_raises_witness :
    ((KDTree.empty 1 ℕ).contains (w1 3) = false) ∧
    ((KDTree.empty 1 ℕ).kNNValue (w1 3) 2 = 0) ∧
    ((KDTree.empty 1 ℕ).atP (w1 3) = none) ∧
    (w1 5 ∉ pointsList TC1.root ∧ TC1.atP (w1 5) = none) ∧
    (strictInvB TC1.root = true ∧ (TC1.atP (w1 5) = none ↔ w1 5 ∉ pointsList TC1.root)) := by
  refine ⟨empty_queries_and_at_raises.1 (w1 3), empty_queries_and_at_raises.2.1 (w1 3) 2,
    empty_queries_and_at_raises.2.2.1 (w1 3), ⟨by decide, ?_⟩, ⟨by decide, ?_⟩⟩
  · exact empty_queries_and_at_raises.2.2.2.1 TC1 (w1 5) (by decide)
  · exact empty_queries_and_at_raises.2.2.2.2 TC1 (w1 5) (by decide)

/-- C2: at a node, after the near-side recursion returns with queue q2, the
far child is searched exactly when q2 is not yet full or the absolute axis
gap is strictly below the current worst priority of q2; in particular, when
q2 is full and the gap exactly equals the worst priority, the far side is
not searched and the result is q2 itself. -/
theorem nnr_prune_iff {N : ℕ} [NeZero N] {E : Type} (p : Point N) (l r : Node N E)
    (lvl : ℕ) (v : E) (key : Point N) (q : BoundedPQueue E) (near far : Node N E)
    (q2 : BoundedPQueue E)
    (hnear : near = if key (axisAt N lvl) < p (axisAt N lvl) then l else r)
    (hfar : far = if key (axisAt N lvl) < p (axisAt N lvl) then r else l)
    (hq2 : q2 = nearestNeighborRecurse near key (q.enqueue v (Distance p key))) :
    (nearestNeighborRecurse (Node.node p l r lvl v) key q =
      if q2.size < q2.maxSize ∨
          ((|key (axisAt N lvl) - p (axisAt N lvl)| : ℚ) : WithTop ℚ) < q2.worst
      then nearestNeighborRecurse far key q2 else q2) ∧
    (q2.maxSize ≤ q2.size →
      ((|key (axisAt N lvl) - p (axisAt N lvl)| : ℚ) : WithTop ℚ) = q2.worst →
      nearestNeighborRecurse (Node.node p l r lvl v) key q = q2) := by
  subst hnear hfar hq2
  constructor
  · by_cases h : key (axisAt N lvl) < p (axisAt N lvl)
    · simp only [nearestNeighborRecurse, h, if_pos]
    · simp only [nearestNeighborRecurse, h, if_neg, not_false_iff, if_false]
  · intro hfull htie
    by_cases h : key (axisAt N lvl) < p (axisAt N lvl)
    · simp only [if_pos h] at hfull htie
      simp only [nearestNeighborRecurse, h, if_pos]
      rw [if_neg]
      rw [not_or]
      exact ⟨not_lt.mpr hfull, htie ▸ lt_irrefl _⟩
    · simp only [if_neg h] at hfull htie
      simp only [nearestNeighborRecurse, h, if_neg, not_false_iff, if_false]
      rw [if_neg]
      rw [not_or]
      exact ⟨not_lt.mpr hfull, htie ▸ lt_irrefl _⟩

/-- C2 witness: a one-node tree queried at axis gap 1 with k = 1; the queue
is full after the near side and the gap exactly equals the worst priority,
so the search returns without visiting the far side. -/
theorem nnr_prune_iff_witness :
    ((BoundedPQueue.mk [((1 : ℚ), (7 : ℕ))] 1).maxSize ≤
      (BoundedPQueue.mk [((1 : ℚ), (7 : ℕ))] 1).size) ∧
    (((|w1 1 (axisAt 1 0) - w1 0 (axisAt 1 0)| : ℚ) : WithTop ℚ) =
      (BoundedPQueue.mk [((1 : ℚ), (7 : ℕ))] 1).worst) ∧
    nearestNeighborRecurse (Node.node (w1 0) Node.nil Node.nil 0 7) (w1 1)
      (BoundedPQueue.create ℕ 1) = BoundedPQueue.mk [((1 : ℚ), (7 : ℕ))] 1 := by
  refine ⟨by decide, by decide, ?_⟩
  have h := nnr_prune_iff (w1 0) Node.nil Node.nil 0 7 (w1 1) (BoundedPQueue.create ℕ 1)
      Node.nil Node.nil (BoundedPQueue.mk [((1 : ℚ), (7 : ℕ))] 1)
      (by simp) (by simp) (by rfl)
  exact h.2 (by decide) (by decide)

/-- Multimap insertion stores exactly one more copy: the result is a
permutation of consing the new entry. -/
theorem insertUB_perm {E : Type} (p : ℚ) (v : E) :
    ∀ l : List (ℚ × E), List.Perm (BoundedPQueue.insertUB p v l) ((p, v) :: l) := by
  intro l
  induction l with
  | nil => simp [BoundedPQueue.insertUB]
  | cons x xs ih =>
    rw [BoundedPQueue.insertUB]
    by_cases h : x.1 ≤ p
    · rw [if_pos h]
      exact (ih.cons x).trans (List.Perm.swap (p, v) x xs)
    · rw [if_neg h]

/-- Multimap insertion grows the entry count by one. -/
theorem insertUB_length {E : Type} (p : ℚ) (v : E) (l : List (ℚ × E)) :
    (BoundedPQueue.insertUB p v l).length = l.length + 1 :=
  (insertUB_perm p v l).length_eq

/-- Multimap insertion keeps the entry list sorted by priority. -/
theorem insertUB_sorted {E : Type} (p : ℚ) (v : E) :
    ∀ l : List (ℚ × E), l.Pairwise (fun a b => a.1 ≤ b.1) →
      (BoundedPQueue.insertUB p v l).Pairwise (fun a b => a.1 ≤ b.1) := by
  intro l
  induction l with
  | nil => intro _; simp [BoundedPQueue.insertUB]
  | cons x xs ih =>
    intro hs
    rw [List.pairwise_cons] at hs
    rw [BoundedPQueue.insertUB]
    by_cases h : x.1 ≤ p
    · rw [if_pos h]
      rw [List.pairwise_cons]
      constructor
      · intro y hy
        have := (insertUB_perm p v xs).mem_iff.mp hy
        rcases List.mem_cons.mp this with hy1 | hy2
        · rw [hy1]; exact h
        · exact hs.1 y hy2
      · exact ih hs.2
    · rw [if_neg h]
      rw [List.pairwise_cons]
      refine ⟨?_, List.pairwise_cons.mpr hs⟩
      intro y hy
      rcases List.mem_cons.mp hy with hy1 | hy2
      · rw [hy1]; exact le_of_not_le h
      · exact le_trans (le_of_not_le h) (hs.1 y hy2)

/-- In a sorted entry list every priority is at most the last one. -/
theorem sorted_le_getLast {E : Type} :
    ∀ (l : List (ℚ × E)) (hne : l ≠ []), l.Pairwise (fun a b => a.1 ≤ b.1) →
      ∀ x ∈ l, x.1 ≤ (l.getLast hne).1 := by
  intro l
  induction l with
  | nil => intro hne; exact absurd rfl hne
  | cons a xs ih =>
    intro hne hs x hx
    rw [List.pairwise_cons] at hs
    cases xs with
    | nil =>
      simp only [List.mem_singleton] at hx
      rw [hx]
      simp [List.getLast]
    | cons b ys =>
      have hne2 : b :: ys ≠ [] := List.cons_ne_nil b ys
      have hlast : (a :: b :: ys).getLast hne = (b :: ys).getLast hne2 := List.getLast_cons hne2
      rw [hlast]
      rcases List.mem_cons.mp hx with h1 | h2
      · rw [h1]
        exact hs.1 _ (List.getLast_mem hne2)
      · exact ih hne2 hs.2 x h2

/-- When the new priority is at least every stored one, multimap insertion
appends the new entry at the very end. -/
theorem insertUB_append_of_le {E : Type} (p : ℚ) (v : E) :
    ∀ l : List (ℚ × E), (∀ x ∈ l, x.1 ≤ p) →
      BoundedPQueue.insertUB p v l = l ++ [(p, v)] := by
  intro l
  induction l with
  | nil => intro _; rfl
  | cons x xs ih =>
    intro hle
    rw [BoundedPQueue.insertUB, if_pos (hle x (List.mem_cons_self x xs))]
    rw [ih (fun y hy => hle y (List.mem_cons_of_mem x hy))]
    rfl

/-- C8: enqueue first inserts the pair; if the size then exceeds maxSize it
removes exactly one entry holding the largest priority, and the size never
exceeds maxSize afterwards. -/
theorem enqueue_spec {E : Type} (q : BoundedPQueue E) (v : E) (p : ℚ)
    (hsort : q.elems.Pairwise (fun a b => a.1 ≤ b.1)) (hsize : q.size ≤ q.maxSize) :
    ((q.enqueue v p).size ≤ q.maxSize) ∧
    (q.size < q.maxSize → List.Perm (q.enqueue v p).elems ((p, v) :: q.elems)) ∧
    (q.size = q.maxSize →
      ∃ e, e ∈ (p, v) :: q.elems ∧ (∀ x ∈ (p, v) :: q.elems, x.1 ≤ e.1) ∧
        List.Perm (e :: (q.enqueue v p).elems) ((p, v) :: q.elems)) := by
  have hlen := insertUB_length p v q.elems
  have hperm := insertUB_perm p v q.elems
  refine ⟨?_, ?_, ?_⟩
  · rcases lt_or_eq_of_le hsize with hlt | heq
    · have hcond : ¬ q.maximumSize < (BoundedPQueue.insertUB p v q.elems).length := by
        rw [hlen]; exact not_lt.mpr (Nat.succ_le_of_lt hlt)
      simp only [BoundedPQueue.enqueue, if_neg hcond]
      show (BoundedPQueue.insertUB p v q.elems).length ≤ q.maximumSize
      rw [hlen]
      exact Nat.succ_le_of_lt hlt
    · have hcond : q.maximumSize < (BoundedPQueue.insertUB p v q.elems).length := by
        have heq2 : q.elems.length = q.maximumSize := heq
        rw [hlen]
        omega
      simp only [BoundedPQueue.enqueue, if_pos hcond]
      show (BoundedPQueue.insertUB p v q.elems).dropLast.length ≤ q.maximumSize
      rw [List.length_dropLast, hlen]
      simp only [Nat.add_sub_cancel]
      exact hsize
  · intro hlt
    have hcond : ¬ q.maximumSize < (BoundedPQueue.insertUB p v q.elems).length := by
      rw [hlen]; exact not_lt.mpr (Nat.succ_le_of_lt hlt)
    simp only [BoundedPQueue.enqueue, if_neg hcond]
    exact hperm
  · intro heq
    have hcond : q.maximumSize < (BoundedPQueue.insertUB p v q.elems).length := by
      have heq2 : q.elems.length = q.maximumSize := heq
      rw [hlen]
      omega
    simp only [BoundedPQueue.enqueue, if_pos hcond]
    have hne : BoundedPQueue.insertUB p v q.elems ≠ [] := by
      intro hnil
      rw [hnil] at hlen
      simp at hlen
    refine ⟨(BoundedPQueue.insertUB p v q.elems).getLast hne, ?_, ?_, ?_⟩
    · exact hperm.mem_iff.mp (List.getLast_mem hne)
    · intro x hx
      exact sorted_le_getLast _ hne (insertUB_sorted p v q.elems hsort) x (hperm.mem_iff.mpr hx)
    · have hsplit := List.dropLast_append_getLast hne
      have h1 : List.Perm
          ((BoundedPQueue.insertUB p v q.elems).getLast hne ::
            (BoundedPQueue.insertUB p v q.elems).dropLast)
          ((BoundedPQueue.insertUB p v q.elems).dropLast ++
            [(BoundedPQueue.insertUB p v q.elems).getLast hne]) :=
        (List.perm_append_singleton _ _).symm
      rw [hsplit] at h1
      exact h1.trans hperm

/-- C8 witness: a sorted full queue of capacity two, enqueued with a middle
priority; the largest entry is evicted and the size stays at capacity. -/
theorem enqueue_spec_witness :
    ((BoundedPQueue.mk [((1 : ℚ), (10 : ℕ)), ((2 : ℚ), 20)] 2).elems.Pairwise
        (fun a b => a.1 ≤ b.1) ∧
      (BoundedPQueue.mk [((1 : ℚ), (10 : ℕ)), ((2 : ℚ), 20)] 2).size ≤
        (BoundedPQueue.mk [((1 : ℚ), (10 : ℕ)), ((2 : ℚ), 20)] 2).maxSize) ∧
    ((BoundedPQueue.mk [((1 : ℚ), (10 : ℕ)), ((2 : ℚ), 20)] 2).enqueue 30 (3 / 2)).size ≤
      (BoundedPQueue.mk [((1 : ℚ), (10 : ℕ)), ((2 : ℚ), 20)] 2).maxSize ∧
    (∃ e, e ∈ ((3 / 2 : ℚ), (30 : ℕ)) :: (BoundedPQueue.mk [((1 : ℚ), (10 : ℕ)), ((2 : ℚ), 20)] 2).elems ∧
      (∀ x ∈ ((3 / 2 : ℚ), (30 : ℕ)) :: (BoundedPQueue.mk [((1 : ℚ), (10 : ℕ)), ((2 : ℚ), 20)] 2).elems,
        x.1 ≤ e.1) ∧
      List.Perm
        (e :: ((BoundedPQueue.mk [((1 : ℚ), (10 : ℕ)), ((2 : ℚ), 20)] 2).enqueue 30 (3 / 2)).elems)
        (((3 / 2 : ℚ), (30 : ℕ)) :: (BoundedPQueue.mk [((1 : ℚ), (10 : ℕ)), ((2 : ℚ), 20)] 2).elems)) := by
  have h := enqueue_spec (BoundedPQueue.mk [((1 : ℚ), (10 : ℕ)), ((2 : ℚ), 20)] 2) 30 (3 / 2)
    (by decide) (by decide)
  exact ⟨⟨by decide, by decide⟩, h.1, h.2.2 (by decide)⟩

/-- C10: enqueuing into a full queue with a priority at least the current
worst leaves the stored entries unchanged: the new entry goes after every
existing one, since equal priorities are inserted at the upper bound, and
the eviction removes the last entry, which is the new one. -/
theorem enqueue_full_high_priority_noop {E : Type} (q : BoundedPQueue E) (v : E) (p : ℚ)
    (hsort : q.elems.Pairwise (fun a b => a.1 ≤ b.1))
    (hfull : q.size = q.maxSize) (hpos : 0 < q.maxSize)
    (hworst : q.worst ≤ ((p : ℚ) : WithTop ℚ)) :
    (q.enqueue v p).elems = q.elems := by
  have hne : q.elems ≠ [] := by
    intro hnil
    have h0 : q.size = 0 := by simp [BoundedPQueue.size, hnil]
    rw [hfull] at h0
    rw [h0] at hpos
    exact Nat.lt_irrefl 0 hpos
  have hlastworst : q.worst = (((q.elems.getLast hne).1 : ℚ) : WithTop ℚ) := by
    rw [BoundedPQueue.worst, List.getLast?_eq_getLast q.elems hne]
  have hlastle : (q.elems.getLast hne).1 ≤ p := by
    rw [hlastworst] at hworst
    exact_mod_cast hworst
  have hall : ∀ x ∈ q.elems, x.1 ≤ p := fun x hx =>
    le_trans (sorted_le_getLast q.elems hne hsort x hx) hlastle
  have hins : BoundedPQueue.insertUB p v q.elems = q.elems ++ [(p, v)] :=
    insertUB_append_of_le p v q.elems hall
  have hcond : q.maximumSize < (BoundedPQueue.insertUB p v q.elems).length := by
    rw [insertUB_length]
    have heq2 : q.elems.length = q.maximumSize := hfull
    omega
  simp only [BoundedPQueue.enqueue, if_pos hcond]
  rw [hins, List.dropLast_concat]

/-- C10 witness: a full sorted queue of capacity two with worst priority 2,
enqueued with the equal priority 2; the entries are unchanged. -/
theorem enqueue_full_high_priority_noop_witness :
    ((BoundedPQueue.mk [((1 : ℚ), (10 : ℕ)), ((2 : ℚ), 20)] 2).elems.Pairwise
        (fun a b => a.1 ≤ b.1) ∧
      (BoundedPQueue.mk [((1 : ℚ), (10 : ℕ)), ((2 : ℚ), 20)] 2).size =
        (BoundedPQueue.mk [((1 : ℚ), (10 : ℕ)), ((2 : ℚ), 20)] 2).maxSize ∧
      0 < (BoundedPQueue.mk [((1 : ℚ), (10 : ℕ)), ((2 : ℚ), 20)] 2).maxSize ∧
      (BoundedPQueue.mk [((1 : ℚ), (10 : ℕ)), ((2 : ℚ), 20)] 2).worst ≤ ((2 : ℚ) : WithTop ℚ)) ∧
    ((BoundedPQueue.mk [((1 : ℚ), (10 : ℕ)), ((2 : ℚ), 20)] 2).enqueue 99 2).elems =
      (BoundedPQueue.mk [((1 : ℚ), (10 : ℕ)), ((2 : ℚ), 20)] 2).elems := by
  refine ⟨⟨by decide, by decide, by decide, by decide⟩, ?_⟩
  exact enqueue_full_high_priority_noop (BoundedPQueue.mk [((1 : ℚ), (10 : ℕ)), ((2 : ℚ), 20)] 2)
    99 2 (by decide) (by decide) (by decide) (by decide)

/-- C1: on the insert-built tree TC1 (points 0, -9/8, -19/16, 1/16 with
labels 0, 1, 1, 0) and query -1/2 with k = 3, the branch-and-bound search
returns label 1 while the naive linear scan over the same stored pairs
returns label 0. The four squared distances are pairwise distinct, so the
three nearest points are unambiguous (labels 0, 0, 1). The search prunes
the right subtree because the code compares the unsquared axis gap 1/2
against the squared worst distance 121/256, although the right subtree
holds the second nearest point at squared distance 81/256. -/
theorem kNNValue_diverges_from_linear_scan :
    KDTree.kNNValue TC1 keyC1 3 = 1 ∧
    naiveKNNValue TC1 keyC1 3 = 0 ∧
    ((sortByDist keyC1 (pairsList TC1.root)).map fun e => Distance e.1 keyC1) =
      [1 / 4, 81 / 256, 25 / 64, 121 / 256] :=
  ⟨by decide, by decide, by decide⟩

/-- An index lookup that succeeds returns a member of the list. -/
theorem mem_of_getElem_opt {α : Type} {l : List α} {n : ℕ} {a : α} (h : l[n]? = some a) :
    a ∈ l := by
  rcases List.getElem?_eq_some_iff.mp h with ⟨hn, he⟩
  exact he ▸ List.getElem_mem hn

/-- An index lookup that succeeds is in range. -/
theorem lt_length_of_getElem_opt {α : Type} {l : List α} {n : ℕ} {a : α}
    (h : l[n]? = some a) : n < l.length :=
  (List.getElem?_eq_some_iff.mp h).1

/-- The walk of the median pointer only moves left. -/
theorem walkLeft_le {N : ℕ} {E : Type} (a : Fin N) (l : List (Point N × E)) :
    ∀ m, walkLeft a l m ≤ m := by
  intro m
  induction m with
  | zero => exact le_refl 0
  | succ m ih =>
    rw [walkLeft]
    cases h1 : l[m]? with
    | none => exact le_refl _
    | some x =>
      cases h2 : l[m + 1]? with
      | none => exact le_refl _
      | some y =>
        by_cases h3 : x.1 a = y.1 a
        · simp only [if_pos h3]
          exact le_trans ih (Nat.le_succ m)
        · simp only [if_neg h3]
          exact le_refl _

/-- Every element the median pointer walked over, and the final pivot,
shares the axis coordinate of the original median slot. -/
theorem walkLeft_coord {N : ℕ} {E : Type} (a : Fin N) (l : List (Point N × E)) :
    ∀ k j (x y : Point N × E), walkLeft a l k ≤ j → j ≤ k →
      l[j]? = some x → l[k]? = some y → x.1 a = y.1 a := by
  intro k
  induction k with
  | zero =>
    intro j x y _ h2 hx hy
    have hj : j = 0 := Nat.le_zero.mp h2
    subst hj
    rw [hx] at hy
    cases hy
    rfl
  | succ k ih =>
    intro j x y hwl hj hx hy
    rw [walkLeft] at hwl
    cases hk : l[k]? with
    | none =>
      rw [hk, hy] at hwl
      simp only at hwl
      have hjeq : j = k + 1 := le_antisymm hj hwl
      subst hjeq
      rw [hx] at hy
      cases hy
      rfl
    | some z =>
      rw [hk, hy] at hwl
      by_cases he : z.1 a = y.1 a
      · simp only [if_pos he] at hwl
        rcases Nat.lt_or_ge j (k + 1) with hlt | hge
        · have hjk : j ≤ k := Nat.lt_succ_iff.mp hlt
          have := ih j x z hwl hjk hx hk
          rw [this, he]
        · have hjeq : j = k + 1 := le_antisymm hj hge
          subst hjeq
          rw [hx] at hy
          cases hy
          rfl
      · simp only [if_neg he] at hwl
        have hjeq : j = k + 1 := le_antisymm hj hwl
        subst hjeq
        rw [hx] at hy
        cases hy
        rfl

/-- First half of the nth_element postcondition. -/
theorem partB_take_drop {N : ℕ} {E : Type} (a : Fin N) (l : List (Point N × E)) (k : ℕ)
    (h : nthPartitionedB a l k = true) :
    ∀ x ∈ l.take k, ∀ y ∈ l.drop k, x.1 a ≤ y.1 a := by
  rw [nthPartitionedB, Bool.and_eq_true] at h
  have h1 := h.1
  rw [List.all_eq_true] at h1
  intro x hx y hy
  have h2 := h1 x hx
  rw [List.all_eq_true] at h2
  exact of_decide_eq_true (h2 y hy)

/-- Second half of the nth_element postcondition: the pivot slot holds the
sorted median, less or equal to everything from its slot on. -/
theorem partB_pivot {N : ℕ} {E : Type} (a : Fin N) (l : List (Point N × E)) (k : ℕ)
    (x : Point N × E) (h : nthPartitionedB a l k = true) (hx : l[k]? = some x) :
    ∀ y ∈ l.drop k, x.1 a ≤ y.1 a := by
  rw [nthPartitionedB, Bool.and_eq_true] at h
  have h2 := h.2
  rw [hx] at h2
  rw [List.all_eq_true] at h2
  intro y hy
  exact of_decide_eq_true (h2 y hy)

/-- The points stored by a built subtree are exactly the input points. -/
theorem pointsList_perm_build {N : ℕ} [NeZero N] {E : Type} :
    ∀ (pts : List (Point N × E)) (lvl : ℕ) (t : Node N E), BuildTree pts lvl t →
      List.Perm (pointsList t) (pts.map Prod.fst) := by
  intro pts lvl t h
  induction h with
  | nil lvl => simp [pointsList]
  | node pts lvl arr m x L R hperm hpart hm hx hL hR ihL ihR =>
    have hmlt : m < arr.length := lt_length_of_getElem_opt hx
    have hdropm : arr.drop m = x :: arr.drop (m + 1) := by
      rw [List.drop_eq_getElem_cons hmlt]
      have hg : arr[m]? = some arr[m] := List.getElem?_eq_getElem hmlt
      rw [hg] at hx
      cases hx
      rfl
    have harr : arr.take m ++ x :: arr.drop (m + 1) = arr := by
      have h1 := List.take_append_drop m arr
      rw [hdropm] at h1
      exact h1
    show List.Perm (x.1 :: (pointsList L ++ pointsList R)) (pts.map Prod.fst)
    have hstep1 : List.Perm (x.1 :: (pointsList L ++ pointsList R))
        (x.1 :: ((arr.take m).map Prod.fst ++ (arr.drop (m + 1)).map Prod.fst)) :=
      (ihL.append ihR).cons x.1
    have hstep2 : List.Perm
        (x.1 :: ((arr.take m).map Prod.fst ++ (arr.drop (m + 1)).map Prod.fst))
        ((arr.take m).map Prod.fst ++ x.1 :: (arr.drop (m + 1)).map Prod.fst) :=
      List.perm_middle.symm
    have hstep3 : arr.map Prod.fst =
        (arr.take m).map Prod.fst ++ x.1 :: (arr.drop (m + 1)).map Prod.fst := by
      conv_lhs => rw [← harr]
      simp [List.map_append]
    have hfinal : List.Perm
        ((arr.take m).map Prod.fst ++ x.1 :: (arr.drop (m + 1)).map Prod.fst)
        (pts.map Prod.fst) := by
      rw [← hstep3]
      exact hperm.map Prod.fst
    exact (hstep1.trans hstep2).trans hfinal

/-- Every tree bulk construction can produce satisfies the weakened level
invariant: left subtree coordinates less or equal, right subtree
coordinates greater or equal, on the splitting axis of each node. -/
theorem buildTree_weakInv {N : ℕ} [NeZero N] {E : Type} :
    ∀ (pts : List (Point N × E)) (lvl : ℕ) (t : Node N E), BuildTree pts lvl t →
      weakInvB t = true := by
  intro pts lvl t h
  induction h with
  | nil lvl => rfl
  | node pts lvl arr m x L R hperm hpart hm hx hL hR ihL ihR =>
    rw [weakInvB]
    simp only [Bool.and_eq_true, List.all_eq_true, decide_eq_true_eq]
    have hmlt : m < arr.length := lt_length_of_getElem_opt hx
    have hmle : m ≤ arr.length / 2 := by
      rw [hm]
      exact walkLeft_le (axisAt N lvl) arr (arr.length / 2)
    have hklt : arr.length / 2 < arr.length := by
      have h1 : 1 ≤ arr.length := by omega
      exact Nat.div_lt_self h1 (by omega)
    have hy : arr[arr.length / 2]? = some arr[arr.length / 2] :=
      List.getElem?_eq_getElem hklt
    have hwlm : walkLeft (axisAt N lvl) arr (arr.length / 2) ≤ m := le_of_eq hm.symm
    have hxy : x.1 (axisAt N lvl) = (arr[arr.length / 2]).1 (axisAt N lvl) :=
      walkLeft_coord (axisAt N lvl) arr (arr.length / 2) m x arr[arr.length / 2]
        hwlm hmle hx hy
    have hydrop : arr[arr.length / 2] ∈ arr.drop (arr.length / 2) := by
      rw [List.drop_eq_getElem_cons hklt]
      exact List.mem_cons_self _ _
    refine ⟨⟨⟨?_, ?_⟩, ihL⟩, ihR⟩
    · intro q hq
      have hqm : q ∈ (arr.take m).map Prod.fst :=
        (pointsList_perm_build _ _ _ hL).mem_iff.mp hq
      rcases List.mem_map.mp hqm with ⟨e, he, rfl⟩
      have hetake : e ∈ arr.take (arr.length / 2) := by
        have ht : arr.take m = (arr.take (arr.length / 2)).take m := by
          rw [List.take_take, Nat.min_eq_left hmle]
        rw [ht] at he
        exact List.take_subset m (arr.take (arr.length / 2)) he
      rw [hxy]
      exact partB_take_drop (axisAt N lvl) arr (arr.length / 2) hpart e hetake
        arr[arr.length / 2] hydrop
    · intro q hq
      have hqm : q ∈ (arr.drop (m + 1)).map Prod.fst :=
        (pointsList_perm_build _ _ _ hR).mem_iff.mp hq
      rcases List.mem_map.mp hqm with ⟨e, he, rfl⟩
      obtain ⟨i, hilt, hie⟩ := List.getElem_of_mem he
      have hei : arr[m + 1 + i]? = some e := by
        have h1 : (arr.drop (m + 1))[i]? = some e := by
          rw [List.getElem?_eq_getElem hilt, hie]
        rw [List.getElem?_drop] at h1
        exact h1
      rcases Nat.lt_or_ge (arr.length / 2) (m + 1 + i) with hgt | hle2
      · have hedrop : e ∈ arr.drop (arr.length / 2) := by
          have h2 : (arr.drop (arr.length / 2))[m + 1 + i - arr.length / 2]? = some e := by
            rw [List.getElem?_drop]
            have h3 : arr.length / 2 + (m + 1 + i - arr.length / 2) = m + 1 + i := by omega
            rw [h3]
            exact hei
          exact mem_of_getElem_opt h2
        rw [hxy]
        exact partB_pivot (axisAt N lvl) arr (arr.length / 2) arr[arr.length / 2]
          hpart hy e hedrop
      · have hco : e.1 (axisAt N lvl) = (arr[arr.length / 2]).1 (axisAt N lvl) :=
          walkLeft_coord (axisAt N lvl) arr (arr.length / 2) (m + 1 + i) e
            arr[arr.length / 2] (le_trans hwlm (by omega)) hle2 hei hy
        rw [hxy, hco]

/-- Points after an insert come from the old tree or are the new point. -/
theorem mem_pointsList_insertNode {N : ℕ} [NeZero N] {E : Type} (pt : Point N) (v : E) :
    ∀ (n : Node N E) (q : Point N), q ∈ pointsList (insertNode n pt v) →
      q ∈ pointsList n ∨ q = pt := by
  intro n
  induction n with
  | nil => intro q hq; exact Or.inl hq
  | node p l r lvl w ihl ihr =>
    intro q hq
    rw [insertNode_node] at hq
    by_cases h1 : p = pt
    · rw [if_pos h1] at hq
      exact Or.inl hq
    · rw [if_neg h1] at hq
      by_cases h2 : pt (axisAt N lvl) < p (axisAt N lvl)
      · rw [if_pos h2] at hq
        cases l with
        | nil =>
          simp only [isNil_nil, if_pos, pointsList, List.mem_cons, List.mem_append] at hq
          simp only [pointsList, List.mem_cons, List.mem_append]
          rcases hq with h | h
          · exact Or.inl (Or.inl h)
          · rcases h with h | h
            · rcases h with h | h
              · exact Or.inr h
              · simp [pointsList] at h
            · exact Or.inl (Or.inr (Or.inr h))
        | node pl ll rl lvll wl =>
          simp only [isNil_node, Bool.false_eq_true, if_false, pointsList, List.mem_cons,
            List.mem_append] at hq
          simp only [pointsList, List.mem_cons, List.mem_append]
          rcases hq with h | h
          · exact Or.inl (Or.inl h)
          · rcases h with h | h
            · rcases ihl q (by simpa [pointsList] using h) with h3 | h3
              · simp only [pointsList, List.mem_cons, List.mem_append] at h3
                exact Or.inl (Or.inr (Or.inl h3))
              · exact Or.inr h3
            · exact Or.inl (Or.inr (Or.inr h))
      · rw [if_neg h2] at hq
        cases r with
        | nil =>
          simp only [isNil_nil, if_pos, pointsList, List.mem_cons, List.mem_append] at hq
          simp only [pointsList, List.mem_cons, List.mem_append]
          rcases hq with h | h
          · exact Or.inl (Or.inl h)
          · rcases h with h | h
            · exact Or.inl (Or.inr (Or.inl h))
            · rcases h with h | h
              · exact Or.inr h
              · simp [pointsList] at h
        | node pr lr rr lvlr wr =>
          simp only [isNil_node, Bool.false_eq_true, if_false, pointsList, List.mem_cons,
            List.mem_append] at hq
          simp only [pointsList, List.mem_cons, List.mem_append]
          rcases hq with h | h
          · exact Or.inl (Or.inl h)
          · rcases h with h | h
            · exact Or.inl (Or.inr (Or.inl h))
            · rcases ihr q (by simpa [pointsList] using h) with h3 | h3
              · simp only [pointsList, List.mem_cons, List.mem_append] at h3
                exact Or.inl (Or.inr (Or.inr h3))
              · exact Or.inr h3

/-- Insertion preserves the weakened level invariant. -/
theorem weakInvB_insertNode {N : ℕ} [NeZero N] {E : Type} (pt : Point N) (v : E) :
    ∀ n : Node N E, weakInvB n = true → weakInvB (insertNode n pt v) = true := by
  intro n
  induction n with
  | nil => intro h; exact h
  | node p l r lvl w ihl ihr =>
    intro h
    rw [weakInvB] at h
    simp only [Bool.and_eq_true, List.all_eq_true, decide_eq_true_eq] at h
    obtain ⟨⟨⟨hle, hge⟩, hwl⟩, hwr⟩ := h
    rw [insertNode_node]
    by_cases h1 : p = pt
    · rw [if_pos h1]
      rw [weakInvB]
      simp only [Bool.and_eq_true, List.all_eq_true, decide_eq_true_eq]
      exact ⟨⟨⟨hle, hge⟩, hwl⟩, hwr⟩
    · by_cases h2 : pt (axisAt N lvl) < p (axisAt N lvl)
      · rw [if_neg h1, if_pos h2]
        cases l with
        | nil =>
          simp only [isNil_nil, if_pos]
          rw [weakInvB]
          simp only [Bool.and_eq_true, List.all_eq_true, decide_eq_true_eq]
          refine ⟨⟨⟨?_, hge⟩, ?_⟩, hwr⟩
          · intro q hq
            simp only [pointsList, List.mem_cons, List.mem_append] at hq
            rcases hq with h | h
            · rw [h]; exact le_of_lt h2
            · simp [pointsList] at h
          · rfl
        | node pl ll rl lvll wl =>
          simp only [isNil_node, Bool.false_eq_true, if_false]
          rw [weakInvB]
          simp only [Bool.and_eq_true, List.all_eq_true, decide_eq_true_eq]
          refine ⟨⟨⟨?_, hge⟩, ihl hwl⟩, hwr⟩
          intro q hq
          rcases mem_pointsList_insertNode pt v _ q hq with h | h
          · exact hle q h
          · rw [h]; exact le_of_lt h2
      · rw [if_neg h1, if_neg h2]
        cases r with
        | nil =>
          simp only [isNil_nil, if_pos]
          rw [weakInvB]
          simp only [Bool.and_eq_true, List.all_eq_true, decide_eq_true_eq]
          refine ⟨⟨⟨hle, ?_⟩, hwl⟩, ?_⟩
          · intro q hq
            simp only [pointsList, List.mem_cons, List.mem_append] at hq
            rcases hq with h | h
            · rw [h]; exact le_of_not_lt h2
            · simp [pointsList] at h
          · rfl
        | node pr lr rr lvlr wr =>
          simp only [isNil_node, Bool.false_eq_true, if_false]
          rw [weakInvB]
          simp only [Bool.and_eq_true, List.all_eq_true, decide_eq_true_eq]
          refine ⟨⟨⟨hle, ?_⟩, hwl⟩, ihr hwr⟩
          intro q hq
          rcases mem_pointsList_insertNode pt v _ q hq with h | h
          · exact hge q h
          · rw [h]; exact le_of_not_lt h2

/-- Insertion preserves the strict level invariant. -/
theorem strictInvB_insertNode {N : ℕ} [NeZero N] {E : Type} (pt : Point N) (v : E) :
    ∀ n : Node N E, strictInvB n = true → strictInvB (insertNode n pt v) = true := by
  intro n
  induction n with
  | nil => intro h; exact h
  | node p l r lvl w ihl ihr =>
    intro h
    rw [strictInvB] at h
    simp only [Bool.and_eq_true, List.all_eq_true, decide_eq_true_eq] at h
    obtain ⟨⟨⟨hlt, hge⟩, hsl⟩, hsr⟩ := h
    rw [insertNode_node]
    by_cases h1 : p = pt
    · rw [if_pos h1]
      rw [strictInvB]
      simp only [Bool.and_eq_true, List.all_eq_true, decide_eq_true_eq]
      exact ⟨⟨⟨hlt, hge⟩, hsl⟩, hsr⟩
    · by_cases h2 : pt (axisAt N lvl) < p (axisAt N lvl)
      · rw [if_neg h1, if_pos h2]
        cases l with
        | nil =>
          simp only [isNil_nil, if_pos]
          rw [strictInvB]
          simp only [Bool.and_eq_true, List.all_eq_true, decide_eq_true_eq]
          refine ⟨⟨⟨?_, hge⟩, ?_⟩, hsr⟩
          · intro q hq
            simp only [pointsList, List.mem_cons, List.mem_append] at hq
            rcases hq with h | h
            · rw [h]; exact h2
            · simp [pointsList] at h
          · rfl
        | node pl ll rl lvll wl =>
          simp only [isNil_node, Bool.false_eq_true, if_false]
          rw [strictInvB]
          simp only [Bool.and_eq_true, List.all_eq_true, decide_eq_true_eq]
          refine ⟨⟨⟨?_, hge⟩, ihl hsl⟩, hsr⟩
          intro q hq
          rcases mem_pointsList_insertNode pt v _ q hq with h | h
          · exact hlt q h
          · rw [h]; exact h2
      · rw [if_neg h1, if_neg h2]
        cases r with
        | nil =>
          simp only [isNil_nil, if_pos]
          rw [strictInvB]
          simp only [Bool.and_eq_true, List.all_eq_true, decide_eq_true_eq]
          refine ⟨⟨⟨hlt, ?_⟩, hsl⟩, ?_⟩
          · intro q hq
            simp only [pointsList, List.mem_cons, List.mem_append] at hq
            rcases hq with h | h
            · rw [h]; exact le_of_not_lt h2
            · simp [pointsList] at h
          · rfl
        | node pr lr rr lvlr wr =>
          simp only [isNil_node, Bool.false_eq_true, if_false]
          rw [strictInvB]
          simp only [Bool.and_eq_true, List.all_eq_true, decide_eq_true_eq]
          refine ⟨⟨⟨hlt, ?_⟩, hsl⟩, ihr hsr⟩
          intro q hq
          rcases mem_pointsList_insertNode pt v _ q hq with h | h
          · exact hge q h
          · rw [h]; exact le_of_not_lt h2

/-- The tree-level insert preserves the weakened invariant. -/
theorem weakInvB_insert_tree {N : ℕ} [NeZero N] {E : Type} (T : KDTree N E) (pt : Point N)
    (v : E) (h : weakInvB T.root = true) : weakInvB (T.insert pt v).root = true := by
  cases hr : T.root with
  | nil => simp only [KDTree.insert, hr]; rfl
  | node p l r lvl w =>
    simp only [KDTree.insert, hr]
    exact weakInvB_insertNode pt v _ (hr ▸ h)

/-- The tree-level insert preserves the strict invariant. -/
theorem strictInvB_insert_tree {N : ℕ} [NeZero N] {E : Type} (T : KDTree N E) (pt : Point N)
    (v : E) (h : strictInvB T.root = true) : strictInvB (T.insert pt v).root = true := by
  cases hr : T.root with
  | nil => simp only [KDTree.insert, hr]; rfl
  | node p l r lvl w =>
    simp only [KDTree.insert, hr]
    exact strictInvB_insertNode pt v _ (hr ▸ h)

/-- Any fold of inserts preserves the weakened invariant. -/
theorem weakInvB_foldl {N : ℕ} [NeZero N] {E : Type} :
    ∀ (ops : List (Point N × E)) (T : KDTree N E), weakInvB T.root = true →
      weakInvB ((ops.foldl (fun T e => T.insert e.1 e.2) T).root) = true := by
  intro ops
  induction ops with
  | nil => intro T h; exact h
  | cons e xs ih =>
    intro T h
    rw [List.foldl_cons]
    exact ih _ (weakInvB_insert_tree T e.1 e.2 h)

/-- Any fold of inserts preserves the strict invariant. -/
theorem strictInvB_foldl {N : ℕ} [NeZero N] {E : Type} :
    ∀ (ops : List (Point N × E)) (T : KDTree N E), strictInvB T.root = true →
      strictInvB ((ops.foldl (fun T e => T.insert e.1 e.2) T).root) = true := by
  intro ops
  induction ops with
  | nil => intro T h; exact h
  | cons e xs ih =>
    intro T h
    rw [List.foldl_cons]
    exact ih _ (strictInvB_insert_tree T e.1 e.2 h)

/-- C3 counterexample: a conforming buildTree run on the one-dimensional
points 1, 0, 1, 2 places a point with coordinate 1 in the left subtree of
the root with coordinate 1, so the strictly-less left invariant fails. -/
theorem strict_invariant_fails_on_build :
    BuildTree pts3 0 t3 ∧ strictInvB t3 = false :=
  ⟨buildTree_t3, by decide⟩

/-- C3 amended: every tree reachable by bulk construction followed by any
sequence of inserts satisfies the weakened level invariant (left subtree
coordinates less or equal on the splitting axis, right subtree greater or
equal), and every tree built by inserts alone from the empty tree satisfies
the strict invariant of the claim. -/
theorem build_weak_inserts_strict_invariant {N : ℕ} [NeZero N] {E : Type} :
    (∀ (pts ops : List (Point N × E)) (t : Node N E), BuildTree pts 0 t →
      weakInvB ((ops.foldl (fun T e => T.insert e.1 e.2)
        (⟨t, pts.length⟩ : KDTree N E)).root) = true) ∧
    (∀ ops : List (Point N × E), strictInvB (applyOps ops).root = true) := by
  constructor
  · intro pts ops t hb
    exact weakInvB_foldl ops ⟨t, pts.length⟩ (buildTree_weakInv pts 0 t hb)
  · intro ops
    exact strictInvB_foldl ops (KDTree.empty N E) rfl

/-- C3 witness: the amended statement evaluated on the bulk-built tree t3
followed by one insert, and on the insert sequence opsC1. -/
theorem build_weak_inserts_strict_invariant_witness :
    BuildTree pts3 0 t3 ∧
    weakInvB (([(w1 5, 50)].foldl (fun T e => T.insert e.1 e.2)
      (⟨t3, pts3.length⟩ : KDTree 1 ℕ)).root) = true ∧
    strictInvB (applyOps opsC1).root = true :=
  ⟨buildTree_t3,
    build_weak_inserts_strict_invariant.1 pts3 [(w1 5, 50)] t3 buildTree_t3,
    build_weak_inserts_strict_invariant.2 opsC1⟩

/-- Unfolding of containsNode at a non-null node. -/
theorem containsNode_node {N : ℕ} [NeZero N] {E : Type} (p : Point N) (l r : Node N E)
    (lvl : ℕ) (w : E) (q : Point N) :
    containsNode (Node.node p l r lvl w) q =
      if p = q then true
      else if q (axisAt N lvl) < p (axisAt N lvl) then
        (if l.isNil then false else containsNode l q)
      else
        (if r.isNil then false else containsNode r q) := by
  by_cases h1 : p = q
  · simp [containsNode, findNode, h1]
  · by_cases h2 : q (axisAt N lvl) < p (axisAt N lvl)
    · cases l <;> simp [containsNode, findNode, h1, h2, Node.isNil]
    · cases r <;> simp [containsNode, findNode, h1, h2, Node.isNil]

/-- Inserting a point the lookup path finds stores no new point. -/
theorem pointsList_insertNode_of_contains {N : ℕ} [NeZero N] {E : Type} (pt : Point N) (v : E) :
    ∀ n : Node N E, containsNode n pt = true →
      pointsList (insertNode n pt v) = pointsList n := by
  intro n
  induction n with
  | nil => intro _; rfl
  | node p l r lvl w ihl ihr =>
    intro h
    rw [containsNode_node] at h
    rw [insertNode_node]
    by_cases h1 : p = pt
    · rw [if_pos h1]; rfl
    · rw [if_neg h1] at h ⊢
      by_cases h2 : pt (axisAt N lvl) < p (axisAt N lvl)
      · rw [if_pos h2] at h ⊢
        cases l with
        | nil => simp at h
        | node pl ll rl lvll wl =>
          simp only [isNil_node, Bool.false_eq_true, if_false] at h ⊢
          rw [pointsList, pointsList, ihl h]
      · rw [if_neg h2] at h ⊢
        cases r with
        | nil => simp at h
        | node pr lr rr lvlr wr =>
          simp only [isNil_node, Bool.false_eq_true, if_false] at h ⊢
          rw [pointsList, pointsList, ihr h]

/-- Under the strict invariant, insertion preserves freedom from duplicate
points. -/
theorem nodup_insertNode {N : ℕ} [NeZero N] {E : Type} (pt : Point N) (v : E) :
    ∀ n : Node N E, strictInvB n = true → (pointsList n).Nodup →
      (pointsList (insertNode n pt v)).Nodup := by
  intro n
  induction n with
  | nil => intro _ h; exact h
  | node p l r lvl w ihl ihr =>
    intro hs hd
    rw [strictInvB] at hs
    simp only [Bool.and_eq_true, List.all_eq_true, decide_eq_true_eq] at hs
    obtain ⟨⟨⟨hlt, hge⟩, hsl⟩, hsr⟩ := hs
    rw [pointsList, List.nodup_cons, List.nodup_append] at hd
    obtain ⟨hpnot, hdl, hdr, hdisj⟩ := hd
    rw [List.mem_append] at hpnot
    push_neg at hpnot
    rw [insertNode_node]
    by_cases h1 : p = pt
    · rw [if_pos h1]
      rw [pointsList, List.nodup_cons, List.nodup_append]
      refine ⟨?_, hdl, hdr, hdisj⟩
      rw [List.mem_append]
      push_neg
      exact hpnot
    · by_cases h2 : pt (axisAt N lvl) < p (axisAt N lvl)
      · rw [if_neg h1, if_pos h2]
        have hptnotr : pt ∉ pointsList r := fun hmem =>
          absurd h2 (not_lt.mpr (hge pt hmem))
        cases l with
        | nil =>
          simp only [isNil_nil, if_pos]
          rw [pointsList, List.nodup_cons, List.nodup_append]
          refine ⟨?_, ?_, hdr, ?_⟩
          · rw [List.mem_append]
            push_neg
            refine ⟨?_, hpnot.2⟩
            simp only [pointsList, List.append_nil, List.mem_singleton]
            exact h1
          · simp [pointsList]
          · rw [List.disjoint_left]
            intro a ha
            simp only [pointsList, List.append_nil, List.mem_singleton] at ha
            rw [ha]
            exact hptnotr
        | node pl ll rl lvll wl =>
          simp only [isNil_node, Bool.false_eq_true, if_false]
          rw [pointsList, List.nodup_cons, List.nodup_append]
          refine ⟨?_, ihl hsl hdl, hdr, ?_⟩
          · rw [List.mem_append]
            push_neg
            refine ⟨?_, hpnot.2⟩
            intro hmem
            rcases mem_pointsList_insertNode pt v _ p hmem with h | h
            · exact hpnot.1 h
            · exact h1 h
          · rw [List.disjoint_left]
            intro a ha har
            rcases mem_pointsList_insertNode pt v _ a ha with h | h
            · exact List.disjoint_left.mp hdisj h har
            · rw [h] at har
              exact hptnotr har
      · rw [if_neg h1, if_neg h2]
        have hptnotl : pt ∉ pointsList l := fun hmem =>
          absurd (hlt pt hmem) h2
        cases r with
        | nil =>
          simp only [isNil_nil, if_pos]
          rw [pointsList, List.nodup_cons, List.nodup_append]
          refine ⟨?_, hdl, ?_, ?_⟩
          · rw [List.mem_append]
            push_neg
            refine ⟨hpnot.1, ?_⟩
            simp only [pointsList, List.append_nil, List.mem_singleton]
            exact h1
          · simp [pointsList]
          · rw [List.disjoint_left]
            intro a ha hamem
            simp only [pointsList, List.append_nil, List.mem_singleton] at hamem
            rw [hamem] at ha
            exact hptnotl ha
        | node pr lr rr lvlr wr =>
          simp only [isNil_node, Bool.false_eq_true, if_false]
          rw [pointsList, List.nodup_cons, List.nodup_append]
          refine ⟨?_, hdl, ihr hsr hdr, ?_⟩
          · rw [List.mem_append]
            push_neg
            refine ⟨hpnot.1, ?_⟩
            intro hmem
            rcases mem_pointsList_insertNode pt v _ p hmem with h | h
            · exact hpnot.2 h
            · exact h1 h
          · rw [List.disjoint_left]
            intro a ha har
            rcases mem_pointsList_insertNode pt v _ a har with h | h
            · exact List.disjoint_left.mp hdisj ha h
            · rw [h] at ha
              exact hptnotl ha

/-- A tree with a successful lookup has a non-null root. -/
theorem root_ne_nil_of_contains {N : ℕ} [NeZero N] {E : Type} (T : KDTree N E) (pt : Point N)
    (h : T.contains pt = true) : T.root.isNil = false := by
  cases hr : T.root with
  | nil =>
    rw [KDTree.contains, hr] at h
    simp [containsNode, findNode] at h
  | node p l r lvl w => rfl

/-- The tree-level insert preserves freedom from duplicates under the
strict invariant. -/
theorem nodup_insert_tree {N : ℕ} [NeZero N] {E : Type} (T : KDTree N E) (pt : Point N)
    (v : E) (hs : strictInvB T.root = true) (hd : (pointsList T.root).Nodup) :
    (pointsList (T.insert pt v).root).Nodup := by
  cases hr : T.root with
  | nil =>
    simp only [KDTree.insert, hr]
    simp [pointsList]
  | node p l r lvl w =>
    simp only [KDTree.insert, hr]
    exact nodup_insertNode pt v _ (hr ▸ hs) (hr ▸ hd)

/-- Folding inserts preserves the strict invariant and duplicate freedom
together. -/
theorem strict_nodup_foldl {N : ℕ} [NeZero N] {E : Type} :
    ∀ (ops : List (Point N × E)) (T : KDTree N E), strictInvB T.root = true →
      (pointsList T.root).Nodup →
      (pointsList ((ops.foldl (fun T e => T.insert e.1 e.2) T).root)).Nodup := by
  intro ops
  induction ops with
  | nil => intro T _ hd; exact hd
  | cons e xs ih =>
    intro T hs hd
    rw [List.foldl_cons]
    exact ih _ (strictInvB_insert_tree T e.1 e.2 hs) (nodup_insert_tree T e.1 e.2 hs hd)

/-- C4 counterexample: bulk construction from two pairs holding the equal
point 0 stores the point twice, in the root and in its right child. -/
theorem build_duplicates_equal_points :
    BuildTree pts4 0 t4 ∧ ¬ (pointsList t4).Nodup :=
  ⟨buildTree_t4, by decide⟩

/-- C4 amended: trees built by insert sequences from the empty tree hold no
two equal points, and inserting a point the lookup finds (always, for a
contained point, under the strict invariant) overwrites the label without
creating a node; but bulk construction stores one node per input pair, so a
collection with equal points yields duplicate nodes. -/
theorem insert_dedup_build_may_duplicate {N : ℕ} [NeZero N] {E : Type} :
    (∀ ops : List (Point N × E), (pointsList (applyOps ops).root).Nodup) ∧
    (∀ (T : KDTree N E) (pt : Point N) (v : E), T.contains pt = true →
      pointsList (T.insert pt v).root = pointsList T.root ∧
      (T.insert pt v).size = T.size) := by
  constructor
  · intro ops
    exact strict_nodup_foldl ops (KDTree.empty N E) rfl List.nodup_nil
  · intro T pt v hc
    have hroot := root_ne_nil_of_contains T pt hc
    refine ⟨?_, insert_size_of_contains T pt v hroot hc⟩
    cases hr : T.root with
    | nil => rw [hr] at hroot; simp [Node.isNil] at hroot
    | node p l r lvl w =>
      simp only [KDTree.insert, hr]
      exact pointsList_insertNode_of_contains pt v _ (by rw [KDTree.contains, hr] at hc; exact hc)

/-- C4 witness: the insert-built tree TC1 is duplicate free, and inserting
its contained point 0 again changes neither the stored points nor the
size. -/
theorem insert_dedup_build_may_duplicate_witness :
    (pointsList (applyOps opsC1).root).Nodup ∧
    TC1.contains (w1 0) = true ∧
    pointsList (TC1.insert (w1 0) 9).root = pointsList TC1.root ∧
    (TC1.insert (w1 0) 9).size = TC1.size := by
  have h := insert_dedup_build_may_duplicate.2 TC1 (w1 0) 9 (by decide)
  exact ⟨insert_dedup_build_may_duplicate.1 opsC1, by decide, h.1, h.2⟩

/-- All addresses of a represented tree are allocated. -/
theorem reprA_bound {N : ℕ} {E : Type} {s : Store N E} {a : Option ℕ} {t : Node N E}
    {ad : List ℕ} (h : ReprA s a t ad) : ∀ x ∈ ad, x < s.length := by
  induction h with
  | nil => intro x hx; simp at hx
  | node i c L R adl adr hget hl hr ihl ihr =>
    intro x hx
    rcases List.mem_cons.mp hx with h1 | h2
    · rw [h1]
      exact lt_length_of_getElem_opt hget
    · rcases List.mem_append.mp h2 with h3 | h3
      · exact ihl x h3
      · exact ihr x h3

/-- A representation only depends on the cells at its own addresses. -/
theorem reprA_agree {N : ℕ} {E : Type} {s s2 : Store N E} {a : Option ℕ} {t : Node N E}
    {ad : List ℕ} (h : ReprA s a t ad) (hag : ∀ x ∈ ad, s2[x]? = s[x]?) :
    ReprA s2 a t ad := by
  induction h with
  | nil => exact ReprA.nil s2
  | node i c L R adl adr hget hl hr ihl ihr =>
    refine ReprA.node s2 i c L R adl adr ?_ ?_ ?_
    · rw [hag i (List.mem_cons_self i _), hget]
    · exact ihl fun x hx => hag x (List.mem_cons_of_mem i (List.mem_append_left adr hx))
    · exact ihr fun x hx => hag x (List.mem_cons_of_mem i (List.mem_append_right adl hx))

/-- Deep copy only allocates: the store grows and every previously
allocated cell is unchanged. -/
theorem copyR_prefix {N : ℕ} {E : Type} {s s2 : Store N E} {a a2 : Option ℕ}
    (h : DeepCopyR s a s2 a2) :
    s.length ≤ s2.length ∧ ∀ x, x < s.length → s2[x]? = s[x]? := by
  induction h with
  | nil => exact ⟨le_refl _, fun x _ => rfl⟩
  | node s0 i c s1 l1 c1 s2i r1 c2 hget hcl hc1 hcr hc2 ihl ihr =>
    obtain ⟨ihl1, ihl2⟩ := ihl
    obtain ⟨ihr1, ihr2⟩ := ihr
    have hlen0 : (s0 ++ [c]).length = s0.length + 1 := by simp
    have hlen1 : (s1.set s0.length { c1 with left := l1 }).length = s1.length :=
      List.length_set s1 _ _
    constructor
    · rw [List.length_set]
      rw [hlen0] at ihl1
      rw [hlen1] at ihr1
      omega
    · intro x hx
      have hx0 : x < (s0 ++ [c]).length := by rw [hlen0]; omega
      have hx1 : x < (s1.set s0.length { c1 with left := l1 }).length := by
        rw [hlen1]; rw [hlen0] at ihl1; omega
      have hne : s0.length ≠ x := by omega
      rw [List.getElem?_set_ne hne]
      rw [ihr2 x hx1]
      rw [List.getElem?_set_ne hne]
      rw [ihl2 x hx0]
      rw [List.getElem?_append]
      rw [if_pos hx]

/-- Inversion of representation at a non-null root address. -/
theorem reprA_some_inv {N : ℕ} {E : Type} {s : Store N E} {i : ℕ} {t : Node N E}
    {ad : List ℕ} (h : ReprA s (some i) t ad) :
    ∃ c L R adl adr, s[i]? = some c ∧ ReprA s c.left L adl ∧ ReprA s c.right R adr ∧
      t = Node.node c.point L R c.level c.value ∧ ad = i :: (adl ++ adr) := by
  cases h
  rename_i c L R adl adr hl hr hget
  exact ⟨c, L, R, adl, adr, hget, hl, hr, rfl, rfl⟩

/-- Inversion of representation at the null address. -/
theorem reprA_none_inv {N : ℕ} {E : Type} {s : Store N E} {t : Node N E}
    {ad : List ℕ} (h : ReprA s none t ad) : t = Node.nil ∧ ad = [] := by
  cases h
  exact ⟨rfl, rfl⟩

/-- Deep copy builds, entirely inside the freshly allocated region, a new
representation of the same pure tree. -/
theorem copyR_spec {N : ℕ} {E : Type} {s s2 : Store N E} {a a2 : Option ℕ}
    (h : DeepCopyR s a s2 a2) :
    ∀ (t : Node N E) (ad : List ℕ), ReprA s a t ad →
      ∃ ad2, ReprA s2 a2 t ad2 ∧ ∀ x ∈ ad2, s.length ≤ x := by
  induction h with
  | nil =>
    intro t ad hrep
    obtain ⟨ht, had⟩ := reprA_none_inv hrep
    subst ht had
    exact ⟨[], ReprA.nil _, fun x hx => absurd hx (List.not_mem_nil x)⟩
  | node s0 i c s1 l1 c1 s2i r1 c2 hget hcl hc1 hcr hc2 ihl ihr =>
    intro t ad hrep
    obtain ⟨c0, L, R, adl, adr, hget0, hrl, hrr, ht, had⟩ := reprA_some_inv hrep
    subst ht had
    have hc0 : c0 = c := by
      rw [hget] at hget0
      exact (Option.some.injEq _ _).mp hget0.symm
    subst hc0
    have hbl : ∀ x ∈ adl, x < s0.length := reprA_bound hrl
    have hbr : ∀ x ∈ adr, x < s0.length := reprA_bound hrr
    have h0l : ReprA (s0 ++ [c0]) c0.left L adl :=
      reprA_agree hrl (fun x hx => by rw [List.getElem?_append, if_pos (hbl x hx)])
    obtain ⟨adl1, hl1, hl1b⟩ := ihl L adl h0l
    have hl1b2 : ∀ x ∈ adl1, s0.length + 1 ≤ x := fun x hx => by
      have := hl1b x hx
      simpa using this
    have hl1bound : ∀ x ∈ adl1, x < s1.length := reprA_bound hl1
    have cp1 := copyR_prefix hcl
    have cp1len : s0.length + 1 ≤ s1.length := by
      have := cp1.1
      simpa using this
    have hc1c : c1 = c0 := by
      have h1 : s1[s0.length]? = (s0 ++ [c0])[s0.length]? := cp1.2 s0.length (by simp)
      rw [List.getElem?_concat_length, hc1] at h1
      exact (Option.some.injEq _ _).mp h1
    have hsl1 : ReprA (s1.set s0.length { c1 with left := l1 }) l1 L adl1 :=
      reprA_agree hl1 (fun x hx => List.getElem?_set_ne (by have := hl1b2 x hx; omega))
    have hsr0 : ReprA (s1.set s0.length { c1 with left := l1 }) c0.right R adr :=
      reprA_agree hrr (fun x hx => by
        have hxlt : x < s0.length := hbr x hx
        rw [List.getElem?_set_ne (by omega)]
        rw [cp1.2 x (by simp; omega)]
        rw [List.getElem?_append, if_pos hxlt])
    obtain ⟨adr1, hr1, hr1b⟩ := ihr R adr hsr0
    have hr1b2 : ∀ x ∈ adr1, s1.length ≤ x := fun x hx => by
      have := hr1b x hx
      rwa [List.length_set] at this
    have cp2 := copyR_prefix hcr
    have cp2len : s1.length ≤ s2i.length := by
      have := cp2.1
      rwa [List.length_set] at this
    have hc2c : c2 = { c1 with left := l1 } := by
      have h1 : s2i[s0.length]? = (s1.set s0.length { c1 with left := l1 })[s0.length]? :=
        cp2.2 s0.length (by rw [List.length_set]; omega)
      rw [List.getElem?_set_self (by omega), hc2] at h1
      exact (Option.some.injEq _ _).mp h1
    have hs2l : ReprA s2i l1 L adl1 :=
      reprA_agree hsl1 (fun x hx =>
        cp2.2 x (by rw [List.length_set]; exact hl1bound x hx))
    have hfl : ReprA (s2i.set s0.length { c2 with right := r1 }) l1 L adl1 :=
      reprA_agree hs2l (fun x hx => List.getElem?_set_ne (by have := hl1b2 x hx; omega))
    have hfr : ReprA (s2i.set s0.length { c2 with right := r1 }) r1 R adr1 :=
      reprA_agree hr1 (fun x hx => List.getElem?_set_ne (by have := hr1b2 x hx; omega))
    have hcell : (s2i.set s0.length { c2 with right := r1 })[s0.length]? =
        some { c2 with right := r1 } :=
      List.getElem?_set_self (by omega)
    refine ⟨s0.length :: adl1 ++ adr1, ?_, ?_⟩
    · have hcc : ({ c2 with right := r1 } : Cell N E) =
          { c0 with left := l1, right := r1 } := by
        rw [hc2c, hc1c]
      exact ReprA.node (s2i.set s0.length { c2 with right := r1 }) s0.length
        ({ c0 with left := l1, right := r1 }) L R adl1 adr1
        (by rw [hcell, hcc]) hfl hfr
    · intro x hx
      rcases List.mem_cons.mp hx with h1 | h2
      · omega
      · rcases List.mem_append.mp h2 with h3 | h3
        · have := hl1b2 x h3
          omega
        · have := hr1b2 x h3
          omega

/-- The node findNode returns lies inside the searched subtree. -/
theorem findR_mem {N : ℕ} [NeZero N] {E : Type} {s : Store N E} {i : ℕ} {pt : Point N}
    {j : ℕ} (hf : FindNodeR s i pt j) :
    ∀ (t : Node N E) (ad : List ℕ), ReprA s (some i) t ad → j ∈ ad := by
  induction hf with
  | found i c pt hget hpt =>
    intro t ad hrep
    obtain ⟨c0, L, R, adl, adr, _, _, _, _, had⟩ := reprA_some_inv hrep
    subst had
    exact List.mem_cons_self _ _
  | leftNil i c pt hget hne hlt hnil =>
    intro t ad hrep
    obtain ⟨c0, L, R, adl, adr, _, _, _, _, had⟩ := reprA_some_inv hrep
    subst had
    exact List.mem_cons_self _ _
  | leftGo i c pt jj m hget hne hlt hcl hrec ih =>
    intro t ad hrep
    obtain ⟨c0, L, R, adl, adr, hget0, hrl, hrr, ht, had⟩ := reprA_some_inv hrep
    subst had
    have hc0 : c0 = c := by
      rw [hget] at hget0
      exact (Option.some.injEq _ _).mp hget0.symm
    subst hc0
    rw [hcl] at hrl
    exact List.mem_cons_of_mem _ (List.mem_append_left _ (ih L adl hrl))
  | rightNil i c pt hget hne hlt hnil =>
    intro t ad hrep
    obtain ⟨c0, L, R, adl, adr, _, _, _, _, had⟩ := reprA_some_inv hrep
    subst had
    exact List.mem_cons_self _ _
  | rightGo i c pt jj m hget hne hlt hcr hrec ih =>
    intro t ad hrep
    obtain ⟨c0, L, R, adl, adr, hget0, hrl, hrr, ht, had⟩ := reprA_some_inv hrep
    subst had
    have hc0 : c0 = c := by
      rw [hget] at hget0
      exact (Option.some.injEq _ _).mp hget0.symm
    subst hc0
    rw [hcr] at hrr
    exact List.mem_cons_of_mem _ (List.mem_append_right _ (ih R adr hrr))

/-- Frame property of insert at the pointer level: an insert through one
root leaves every tree whose addresses are disjoint from that root
unchanged. -/
theorem insertR_frame {N : ℕ} [NeZero N] {E : Type} {s s3 : Store N E} {b b3 : Option ℕ}
    {pt : Point N} {v : E} (hins : InsertR s b pt v s3 b3)
    {u : Node N E} {adb : List ℕ} (hrepb : ReprA s b u adb)
    {a : Option ℕ} {t : Node N E} {ad : List ℕ} (hrep : ReprA s a t ad)
    (hdisj : ∀ x ∈ adb, x ∉ ad) :
    ReprA s3 a t ad := by
  cases hins with
  | emptyTree pt v =>
    exact reprA_agree hrep (fun x hx => by
      rw [List.getElem?_append, if_pos (reprA_bound hrep x hx)])
  | overwrite i pt v j c hfind hget hpt =>
    have hj : j ∈ adb := findR_mem hfind u adb hrepb
    exact reprA_agree hrep
      (fun x hx => List.getElem?_set_ne (fun he => hdisj j hj (by rw [he]; exact hx)))
  | attachLeft i pt v j c hfind hget hne hlt =>
    have hj : j ∈ adb := findR_mem hfind u adb hrepb
    apply reprA_agree hrep
    intro x hx
    rw [List.getElem?_set_ne (fun he => hdisj j hj (by rw [he]; exact hx))]
    rw [List.getElem?_append, if_pos (reprA_bound hrep x hx)]
  | attachRight i pt v j c hfind hget hne hlt =>
    have hj : j ∈ adb := findR_mem hfind u adb hrepb
    apply reprA_agree hrep
    intro x hx
    rw [List.getElem?_set_ne (fun he => hdisj j hj (by rw [he]; exact hx))]
    rw [List.getElem?_append, if_pos (reprA_bound hrep x hx)]

/-- C9: deep copy yields a representation of the same pure tree (the same
stored point-to-label bindings) at entirely fresh addresses; afterwards any
insert or label overwrite through the copy root leaves every binding of
the original tree unchanged, and any insert through the original root
leaves the copy unchanged. The size_ member belongs to each KDTree object
separately, so an operation on one object cannot change the size field of
the other. -/
theorem deepcopy_disjoint_frame {N : ℕ} [NeZero N] {E : Type}
    {s s2 : Store N E} {a a2 : Option ℕ} {t : Node N E} {ad : List ℕ}
    (hrep : ReprA s a t ad) (hcopy : DeepCopyR s a s2 a2) :
    ∃ ad2, ReprA s2 a2 t ad2 ∧ ReprA s2 a t ad ∧
      (∀ (pt : Point N) (v : E) (s3 : Store N E) (b3 : Option ℕ),
        InsertR s2 a2 pt v s3 b3 → ReprA s3 a t ad) ∧
      (∀ (pt : Point N) (v : E) (s3 : Store N E) (b3 : Option ℕ),
        InsertR s2 a pt v s3 b3 → ReprA s3 a2 t ad2) := by
  obtain ⟨ad2, hrep2, hfresh⟩ := copyR_spec hcopy t ad hrep
  have hbound : ∀ x ∈ ad, x < s.length := reprA_bound hrep
  have cp := copyR_prefix hcopy
  have hrepOld : ReprA s2 a t ad :=
    reprA_agree hrep (fun x hx => cp.2 x (hbound x hx))
  have hdisj : ∀ x ∈ ad2, x ∉ ad := fun x hx hmem =>
    absurd (hbound x hmem) (not_lt.mpr (hfresh x hx))
  have hdisj2 : ∀ x ∈ ad, x ∉ ad2 := fun x hx hmem =>
    absurd (hbound x hx) (not_lt.mpr (hfresh x hmem))
  refine ⟨ad2, hrep2, hrepOld, ?_, ?_⟩
  · intro pt v s3 b3 hins
    exact insertR_frame hins hrep2 hrepOld hdisj
  · intro pt v s3 b3 hins
    exact insertR_frame hins hrepOld hrep2 hdisj2

/-- C9 witness: a one-node heap, its deep copy into a fresh cell, and the
frame conclusions instantiated there. -/
theorem deepcopy_disjoint_frame_witness :
    (ReprA [(⟨w1 0, none, none, 0, 5⟩ : Cell 1 ℕ)] (some 0)
      (Node.node (w1 0) Node.nil Node.nil 0 5) [0]) ∧
    (DeepCopyR [(⟨w1 0, none, none, 0, 5⟩ : Cell 1 ℕ)] (some 0)
      [(⟨w1 0, none, none, 0, 5⟩ : Cell 1 ℕ), (⟨w1 0, none, none, 0, 5⟩ : Cell 1 ℕ)]
      (some 1)) ∧
    (∃ ad2, ReprA [(⟨w1 0, none, none, 0, 5⟩ : Cell 1 ℕ), (⟨w1 0, none, none, 0, 5⟩ : Cell 1 ℕ)]
        (some 1) (Node.node (w1 0) Node.nil Node.nil 0 5) ad2 ∧
      ReprA [(⟨w1 0, none, none, 0, 5⟩ : Cell 1 ℕ), (⟨w1 0, none, none, 0, 5⟩ : Cell 1 ℕ)]
        (some 0) (Node.node (w1 0) Node.nil Node.nil 0 5) [0] ∧
      (∀ (pt : Point 1) (v : ℕ) (s3 : Store 1 ℕ) (b3 : Option ℕ),
        InsertR [(⟨w1 0, none, none, 0, 5⟩ : Cell 1 ℕ), (⟨w1 0, none, none, 0, 5⟩ : Cell 1 ℕ)]
          (some 1) pt v s3 b3 →
        ReprA s3 (some 0) (Node.node (w1 0) Node.nil Node.nil 0 5) [0]) ∧
      (∀ (pt : Point 1) (v : ℕ) (s3 : Store 1 ℕ) (b3 : Option ℕ),
        InsertR [(⟨w1 0, none, none, 0, 5⟩ : Cell 1 ℕ), (⟨w1 0, none, none, 0, 5⟩ : Cell 1 ℕ)]
          (some 0) pt v s3 b3 →
        ReprA s3 (some 1) (Node.node (w1 0) Node.nil Node.nil 0 5) ad2)) := by
  have hrep : ReprA [(⟨w1 0, none, none, 0, 5⟩ : Cell 1 ℕ)] (some 0)
      (Node.node (w1 0) Node.nil Node.nil 0 5) [0] :=
    ReprA.node _ 0 (⟨w1 0, none, none, 0, 5⟩ : Cell 1 ℕ) Node.nil Node.nil [] []
      rfl (ReprA.nil _) (ReprA.nil _)
  have hcopy : DeepCopyR [(⟨w1 0, none, none, 0, 5⟩ : Cell 1 ℕ)] (some 0)
      [(⟨w1 0, none, none, 0, 5⟩ : Cell 1 ℕ), (⟨w1 0, none, none, 0, 5⟩ : Cell 1 ℕ)]
      (some 1) :=
    DeepCopyR.node [(⟨w1 0, none, none, 0, 5⟩ : Cell 1 ℕ)] 0
      (⟨w1 0, none, none, 0, 5⟩ : Cell 1 ℕ)
      [(⟨w1 0, none, none, 0, 5⟩ : Cell 1 ℕ), (⟨w1 0, none, none, 0, 5⟩ : Cell 1 ℕ)] none
      (⟨w1 0, none, none, 0, 5⟩ : Cell 1 ℕ)
      [(⟨w1 0, none, none, 0, 5⟩ : Cell 1 ℕ), (⟨w1 0, none, none, 0, 5⟩ : Cell 1 ℕ)] none
      (⟨w1 0, none, none, 0, 5⟩ : Cell 1 ℕ)
      rfl (DeepCopyR.nil _) rfl (DeepCopyR.nil _) rfl
  exact ⟨hrep, hcopy, deepcopy_disjoint_frame hrep hcopy⟩

/-- C5 witness: inserting point 2 twice into TC1 with labels 3 then 4. -/
theorem insert_insert_same_point_witness :
    ((TC1.insert (w1 2) 3).insert (w1 2) 4).size = (TC1.insert (w1 2) 3).size ∧
    ((TC1.insert (w1 2) 3).insert (w1 2) 4).atP (w1 2) = some 4 :=
  insert_insert_same_point TC1 (w1 2) 3 4

/-- C6 witness: the amended statement evaluated on the insert sequence
opsC1 at the point 0, which was inserted with label 0. -/
theorem applyOps_contains_at_witness :
    (((applyOps opsC1).contains (w1 0) = true) ↔ (w1 0) ∈ opsC1.map Prod.fst) ∧
    (applyOps opsC1).atP (w1 0) = lastAssigned opsC1 (w1 0) :=
  applyOps_contains_at opsC1 (w1 0)

end
